import Mathlib

/-!
Verification development for the SCET metadata search system.

Python strings are modelled as `List Char`.  The Unicode primitives used by
the code (`unicodedata.normalize('NFKD', ·)`, `str.lower()`, the regex
classes `\w`/`\s`, `str.split()`, `str.strip()`) are abstracted as a
structure `UnicodePrims` of per-character functions; `str.lower` and NFKD
decomposition may map one character to several, so both are
character-to-string maps.  NFKD canonical reordering only permutes
combining marks, which are neither word characters (`\w` via isalnum) nor
whitespace and are therefore erased by the regex filter in
`normalize_title`; the per-character concatenation model below is faithful
up to that erasure.  Facts about the real Unicode tables (idempotence of
lowercasing, stability of decompositions) enter only as explicit
hypotheses of the theorems that need them.

Floating point numbers are modelled as rationals where the code only adds,
multiplies and compares them, and as reals in the relevance scorer, whose
semantic component divides by a Euclidean norm (a square root).
-/

/-- Characters of a string literal, as the model of a Python `str`. -/
def chars (s : String) : List Char := s.data

/-- An abstract interface to the Unicode data used by the code: per-character
full NFKD decomposition, per-character full lowercase mapping, and the regex
character classes `\w` and `\s` (the latter also serving `str.split`,
`str.strip`). -/
structure UnicodePrims where
  nfkdChar : Char → List Char
  lowerChar : Char → List Char
  isWordChar : Char → Bool
  isSpaceChar : Char → Bool

/-- Model of `unicodedata.normalize('NFKD', s)` (see the module comment for
the treatment of canonical reordering). -/
def pyNFKD (U : UnicodePrims) (s : List Char) : List Char :=
  (s.map U.nfkdChar).flatten

/-- Model of Python `str.lower()` (full lowercase mapping, possibly
one-to-many). -/
def pyLower (U : UnicodePrims) (s : List Char) : List Char :=
  (s.map U.lowerChar).flatten

/-- The character class kept by the regex substitution
`re.sub(r"[^\w\s\-\']", '', title)` in `normalize_title`: word characters,
whitespace, hyphen and apostrophe. -/
def keepChar (U : UnicodePrims) (c : Char) : Bool :=
  U.isWordChar c || U.isSpaceChar c || c = '-' || c = Char.ofNat 39

/-- Model of Python `str.split()` (split on whitespace, dropping empty
pieces), written with an accumulator so that it is structurally recursive.
The accumulator holds the current word reversed. -/
def splitWsAux (U : UnicodePrims) : List Char → List Char → List (List Char)
  | [], acc => if acc = [] then [] else [acc.reverse]
  | c :: cs, acc =>
    if U.isSpaceChar c then
      if acc = [] then splitWsAux U cs [] else acc.reverse :: splitWsAux U cs []
    else splitWsAux U cs (c :: acc)

/-- Model of Python `str.split()`. -/
def splitWs (U : UnicodePrims) (s : List Char) : List (List Char) :=
  splitWsAux U s []

/-- Model of Python `' '.join(ws)`. -/
def joinWords (ws : List (List Char)) : List Char :=
  List.intercalate [' '] ws

/-- Model of Python `str.strip()` (remove leading and trailing
whitespace). -/
def stripWs (U : UnicodePrims) (s : List Char) : List Char :=
  (((s.dropWhile U.isSpaceChar).reverse.dropWhile U.isSpaceChar).reverse)

/-- Embedding of `normalize_title` (src/backend/app/utils.py): NFKD
normalization, lowercasing, removal of characters outside `[\w\s\-']`,
whitespace collapsing via `' '.join(title.split())`, and a final
`strip()`; empty input short-circuits to the empty string. -/
def normalize_title (U : UnicodePrims) (title : List Char) : List Char :=
  if title = [] then []
  else
    stripWs U (joinWords (splitWs U ((pyLower U (pyNFKD U title)).filter (keepChar U))))

-- Basic properties of the split/join/strip toolkit, used for the
-- idempotence of `normalize_title`.

theorem splitWsAux_words_clean (U : UnicodePrims) :
    ∀ (s acc : List Char), (∀ c ∈ acc, U.isSpaceChar c = false) →
      ∀ w ∈ splitWsAux U s acc, w ≠ [] ∧ ∀ c ∈ w, U.isSpaceChar c = false := by
  intro s
  induction s with
  | nil =>
    intro acc hacc w hw
    by_cases h : acc = []
    · simp [splitWsAux, h] at hw
    · simp [splitWsAux, h] at hw
      subst hw
      refine ⟨by simpa using h, ?_⟩
      intro c hc
      exact hacc c (by simpa using hc)
  | cons c cs ih =>
    intro acc hacc w hw
    by_cases hsp : U.isSpaceChar c
    · by_cases h : acc = []
      · simp [splitWsAux, hsp, h] at hw
        exact ih [] (by simp) w hw
      · simp [splitWsAux, hsp, h] at hw
        rcases hw with hw | hw
        · subst hw
          refine ⟨by simpa using h, ?_⟩
          intro d hd
          exact hacc d (by simpa using hd)
        · exact ih [] (by simp) w hw
    · simp [splitWsAux, hsp] at hw
      refine ih (c :: acc) ?_ w hw
      intro d hd
      rcases List.mem_cons.mp hd with h | h
      · subst h; simpa using hsp
      · exact hacc d h

/-- Every word of a whitespace split is nonempty and free of whitespace. -/
theorem splitWs_words_clean (U : UnicodePrims) (s : List Char) :
    ∀ w ∈ splitWs U s, w ≠ [] ∧ ∀ c ∈ w, U.isSpaceChar c = false := by
  exact splitWsAux_words_clean U s [] (by simp)

theorem splitWsAux_append_word (U : UnicodePrims) :
    ∀ (w s acc : List Char), (∀ c ∈ w, U.isSpaceChar c = false) →
      splitWsAux U (w ++ s) acc = splitWsAux U s (w.reverse ++ acc) := by
  intro w
  induction w with
  | nil => intro s acc _; simp
  | cons c cs ih =>
    intro s acc hw
    have hc : U.isSpaceChar c = false := hw c (by simp)
    have h2 := ih s (c :: acc) (fun d hd => hw d (by simp [hd]))
    simp only [List.cons_append, splitWsAux, hc, Bool.false_eq_true, if_false,
      List.append_eq] at h2 ⊢
    rw [h2]
    simp

theorem splitWs_intercalate (U : UnicodePrims) (hsp : U.isSpaceChar ' ' = true) :
    ∀ ws : List (List Char),
      (∀ w ∈ ws, w ≠ [] ∧ ∀ c ∈ w, U.isSpaceChar c = false) →
      splitWs U (List.intercalate [' '] ws) = ws := by
  intro ws
  induction ws with
  | nil => intro _; simp [splitWs, splitWsAux, List.intercalate]
  | cons w rest ih =>
    intro h
    obtain ⟨hw, hwc⟩ := h w (by simp)
    cases rest with
    | nil =>
      simp only [List.intercalate, List.intersperse, List.flatten]
      show splitWs U (w ++ []) = [w]
      unfold splitWs
      rw [splitWsAux_append_word U w [] [] hwc]
      simp [splitWsAux, hw]
    | cons w2 rest2 =>
      have hquot : List.intercalate [' '] (w :: w2 :: rest2) =
          w ++ ' ' :: List.intercalate [' '] (w2 :: rest2) := by
        simp [List.intercalate, List.intersperse]
      unfold splitWs
      rw [hquot, splitWsAux_append_word U w _ [] hwc]
      simp only [List.append_nil, splitWsAux, hsp]
      have hwrev : ¬ (w.reverse = []) := by simpa using hw
      simp only [if_neg hwrev, List.reverse_reverse]
      have := ih (fun x hx => h x (by simp [hx]))
      unfold splitWs at this
      simp [this]

theorem splitWsAux_all_spaces (U : UnicodePrims) :
    ∀ (t acc : List Char), (∀ c ∈ t, U.isSpaceChar c = true) →
      splitWsAux U t acc = splitWsAux U [] acc := by
  intro t
  induction t with
  | nil => intro acc _; rfl
  | cons c cs ih =>
    intro acc h
    have hc : U.isSpaceChar c = true := h c (by simp)
    have hrest : splitWsAux U cs [] = [] := by
      simpa [splitWsAux] using ih [] (fun d hd => h d (by simp [hd]))
    by_cases hacc : acc = []
    · simp [splitWsAux, hc, hacc, hrest]
    · simp [splitWsAux, hc, hacc, hrest]

theorem splitWsAux_append_spaces (U : UnicodePrims) :
    ∀ (s t acc : List Char), (∀ c ∈ t, U.isSpaceChar c = true) →
      splitWsAux U (s ++ t) acc = splitWsAux U s acc := by
  intro s
  induction s with
  | nil =>
    intro t acc h
    simpa using splitWsAux_all_spaces U t acc h
  | cons c cs ih =>
    intro t acc h
    by_cases hc : U.isSpaceChar c
    · by_cases hacc : acc = [] <;>
        simp [splitWsAux, hc, hacc, ih t [] h]
    · simp [splitWsAux, hc, ih t (c :: acc) h]

theorem splitWs_dropWhile (U : UnicodePrims) (s : List Char) :
    splitWs U (s.dropWhile U.isSpaceChar) = splitWs U s := by
  induction s with
  | nil => rfl
  | cons c cs ih =>
    by_cases hc : U.isSpaceChar c
    · simpa [List.dropWhile, hc, splitWs, splitWsAux] using ih
    · simp [List.dropWhile, hc]

/-- The whitespace split is unchanged by `str.strip()`. -/
theorem splitWs_stripWs (U : UnicodePrims) (s : List Char) :
    splitWs U (stripWs U s) = splitWs U s := by
  have h1 : splitWs U (s.dropWhile U.isSpaceChar) = splitWs U s :=
    splitWs_dropWhile U s
  set u := s.dropWhile U.isSpaceChar with hu
  have hdecomp : u = stripWs U s ++ (u.reverse.takeWhile U.isSpaceChar).reverse := by
    have := List.takeWhile_append_dropWhile (p := U.isSpaceChar) (l := u.reverse)
    calc u = u.reverse.reverse := by simp
    _ = (u.reverse.takeWhile U.isSpaceChar ++ u.reverse.dropWhile U.isSpaceChar).reverse := by
        rw [this]
    _ = stripWs U s ++ (u.reverse.takeWhile U.isSpaceChar).reverse := by
        rw [List.reverse_append]; rfl
  have hsp : ∀ c ∈ (u.reverse.takeWhile U.isSpaceChar).reverse, U.isSpaceChar c = true := by
    intro c hc
    exact List.mem_takeWhile_imp (List.mem_reverse.mp hc)
  calc splitWs U (stripWs U s)
      = splitWs U (stripWs U s ++ (u.reverse.takeWhile U.isSpaceChar).reverse) := by
        unfold splitWs
        rw [splitWsAux_append_spaces U _ _ _ hsp]
    _ = splitWs U u := by rw [← hdecomp]
    _ = splitWs U s := h1

theorem mem_stripWs (U : UnicodePrims) {c : Char} {s : List Char}
    (h : c ∈ stripWs U s) : c ∈ s := by
  unfold stripWs at h
  have h1 := List.mem_reverse.mp h
  have h2 := (List.dropWhile_sublist (l := (s.dropWhile U.isSpaceChar).reverse)
    U.isSpaceChar).subset h1
  have h3 := List.mem_reverse.mp h2
  exact (List.dropWhile_sublist (l := s) U.isSpaceChar).subset h3

theorem mem_joinWords {c : Char} {ws : List (List Char)}
    (h : c ∈ joinWords ws) : c = ' ' ∨ ∃ w ∈ ws, c ∈ w := by
  induction ws with
  | nil => simp [joinWords, List.intercalate] at h
  | cons w rest ih =>
    cases rest with
    | nil =>
      simp [joinWords, List.intercalate, List.intersperse] at h
      exact Or.inr ⟨w, by simp, h⟩
    | cons w2 rest2 =>
      have hq : joinWords (w :: w2 :: rest2) = w ++ ' ' :: joinWords (w2 :: rest2) := by
        simp [joinWords, List.intercalate, List.intersperse]
      rw [hq] at h
      rcases List.mem_append.mp h with h | h
      · exact Or.inr ⟨w, by simp, h⟩
      · rcases List.mem_cons.mp h with h | h
        · exact Or.inl h
        · rcases ih h with h | ⟨w', hw', hc⟩
          · exact Or.inl h
          · exact Or.inr ⟨w', by simp [hw'], hc⟩

theorem mem_of_mem_splitWsAux (U : UnicodePrims) :
    ∀ (s acc : List Char) (w : List Char), w ∈ splitWsAux U s acc →
      ∀ c ∈ w, c ∈ s ∨ c ∈ acc := by
  intro s
  induction s with
  | nil =>
    intro acc w hw c hc
    by_cases hacc : acc = []
    · simp [splitWsAux, hacc] at hw
    · simp [splitWsAux, hacc] at hw
      subst hw
      exact Or.inr (List.mem_reverse.mp hc)
  | cons a as ih =>
    intro acc w hw c hc
    by_cases ha : U.isSpaceChar a
    · by_cases hacc : acc = []
      · simp [splitWsAux, ha, hacc] at hw
        rcases ih [] w hw c hc with h | h
        · exact Or.inl (by simp [h])
        · simp at h
      · simp [splitWsAux, ha, hacc] at hw
        rcases hw with hw | hw
        · subst hw
          exact Or.inr (List.mem_reverse.mp hc)
        · rcases ih [] w hw c hc with h | h
          · exact Or.inl (by simp [h])
          · simp at h
    · simp [splitWsAux, ha] at hw
      rcases ih (a :: acc) w hw c hc with h | h
      · exact Or.inl (by simp [h])
      · rcases List.mem_cons.mp h with h | h
        · exact Or.inl (by simp [h])
        · exact Or.inr h

theorem mem_of_mem_splitWs (U : UnicodePrims) {s : List Char} {w : List Char}
    (hw : w ∈ splitWs U s) {c : Char} (hc : c ∈ w) : c ∈ s := by
  rcases mem_of_mem_splitWsAux U s [] w hw c hc with h | h
  · exact h
  · simp at h

theorem flatten_map_singleton {f : Char → List Char} :
    ∀ {l : List Char}, (∀ c ∈ l, f c = [c]) → (l.map f).flatten = l := by
  intro l
  induction l with
  | nil => intro _; rfl
  | cons c cs ih =>
    intro h
    simp only [List.map_cons, List.flatten_cons, h c (by simp)]
    rw [ih (fun d hd => h d (by simp [hd]))]
    rfl

/-- C9. `normalize_title` is idempotent.  The hypotheses are the Unicode
conformance facts the proof needs: characters produced by the full
lowercase mapping are themselves lowercase-stable (h1); lowering a
character of a full NFKD decomposition yields NFKD-inert characters (h2);
and the ASCII space is whitespace, NFKD-inert and lowercase-stable
(h3, h4, h5). -/
theorem normalize_title_idempotent (U : UnicodePrims)
    (h1 : ∀ a b, b ∈ U.lowerChar a → U.lowerChar b = [b])
    (h2 : ∀ a b c, b ∈ U.nfkdChar a → c ∈ U.lowerChar b → U.nfkdChar c = [c])
    (h3 : U.isSpaceChar ' ' = true)
    (h4 : U.nfkdChar ' ' = [' '])
    (h5 : U.lowerChar ' ' = [' '])
    (s : List Char) :
    normalize_title U (normalize_title U s) = normalize_title U s := by
  by_cases hs : s = []
  · simp [normalize_title, hs]
  by_cases ht : normalize_title U s = []
  · rw [ht]; simp [normalize_title]
  set fl := (pyLower U (pyNFKD U s)).filter (keepChar U) with hfl
  set ws := splitWs U fl with hws
  have htdef : normalize_title U s = stripWs U (joinWords ws) := by
    rw [normalize_title, if_neg hs]
  have hclean : ∀ w ∈ ws, w ≠ [] ∧ ∀ c ∈ w, U.isSpaceChar c = false :=
    splitWs_words_clean U fl
  -- every character of the normalized string is NFKD-inert,
  -- lowercase-stable and in the kept class
  have hgood : ∀ c ∈ normalize_title U s,
      U.nfkdChar c = [c] ∧ U.lowerChar c = [c] ∧ keepChar U c = true := by
    intro c hc
    rw [htdef] at hc
    have hcj := mem_stripWs U hc
    rcases mem_joinWords hcj with rfl | ⟨w, hwmem, hcw⟩
    · exact ⟨h4, h5, by simp [keepChar, h3]⟩
    · have hcfl : c ∈ fl := mem_of_mem_splitWs U hwmem hcw
      have hkeep : keepChar U c = true := List.of_mem_filter hcfl
      have hcl : c ∈ pyLower U (pyNFKD U s) := List.mem_of_mem_filter hcfl
      unfold pyLower at hcl
      rcases List.mem_flatten.mp hcl with ⟨lw, hlw, hclw⟩
      rcases List.mem_map.mp hlw with ⟨b, hb, rfl⟩
      unfold pyNFKD at hb
      rcases List.mem_flatten.mp hb with ⟨db, hdb, hbdb⟩
      rcases List.mem_map.mp hdb with ⟨a, _, rfl⟩
      exact ⟨h2 a b c hbdb hclw, h1 b c hclw, hkeep⟩
  -- pass 2 reduces to pass 1
  have hnfkd : pyNFKD U (normalize_title U s) = normalize_title U s :=
    flatten_map_singleton (fun c hc => (hgood c hc).1)
  have hlow : pyLower U (normalize_title U s) = normalize_title U s :=
    flatten_map_singleton (fun c hc => (hgood c hc).2.1)
  have hfilter : (normalize_title U s).filter (keepChar U) = normalize_title U s :=
    List.filter_eq_self.mpr (fun c hc => (hgood c hc).2.2)
  have hsplit : splitWs U (normalize_title U s) = ws := by
    rw [htdef, splitWs_stripWs]
    exact splitWs_intercalate U h3 ws hclean
  calc normalize_title U (normalize_title U s)
      = stripWs U (joinWords (splitWs U
          (((pyLower U (pyNFKD U (normalize_title U s)))).filter (keepChar U)))) := by
        rw [normalize_title, if_neg ht]
    _ = stripWs U (joinWords ws) := by rw [hnfkd, hlow, hfilter, hsplit]
    _ = normalize_title U s := htdef.symm

/-- A concrete instantiation of the Unicode interface with identity
decomposition and lowercase maps, used to exercise theorems on explicit
inputs. -/
def idPrims : UnicodePrims where
  nfkdChar := fun c => [c]
  lowerChar := fun c => [c]
  isWordChar := fun c => c.isAlphanum
  isSpaceChar := fun c => c == ' '

/-- Witness for C9: idempotence applied at a concrete input, with every
conformance hypothesis discharged for `idPrims`. -/
theorem normalize_title_idempotent_witness :
    normalize_title idPrims (normalize_title idPrims (chars "  The   Great..Gatsby !x ")) =
      normalize_title idPrims (chars "  The   Great..Gatsby !x ") :=
  normalize_title_idempotent idPrims
    (fun _ b h => by simp [idPrims] at h; simp [idPrims, h])
    (fun _ b c hb hc => by simp [idPrims] at hb hc; simp [idPrims, hb, hc])
    rfl rfl rfl (chars "  The   Great..Gatsby !x ")

/-- A concrete instantiation of the Unicode interface restricted to ASCII
behaviour (identity decomposition, ASCII lowercasing), used to exercise
theorems and counterexamples on explicit inputs. -/
def asciiPrims : UnicodePrims where
  nfkdChar := fun c => [c]
  lowerChar := fun c => [c.toLower]
  isWordChar := fun c => c.isAlphanum || c == '_'
  isSpaceChar := fun c => c == ' ' || c == '\t' || c == '\n' || c == '\r'

-- ===================================================================
-- Spell corrector (src/backend/app/ai_search/spell_corrector.py)
-- ===================================================================

/-- A Python str in this model. -/
abbrev Word := List Char

/-- Lookup in a Python dict modelled as an association list (first match;
keys are unique by construction of `dictInsert`). -/
def dictLookup (d : List (Word × Word)) (k : Word) : Option Word :=
  (d.find? (fun p => p.1 == k)).map (·.2)

/-- Assignment `d[k] = v` on a Python dict modelled as an association
list: overwrite the existing binding or append a new one. -/
def dictInsert (d : List (Word × Word)) (k : Word) (v : Word) : List (Word × Word) :=
  if (d.find? (fun p => p.1 == k)).isSome then
    d.map (fun p => if p.1 == k then (k, v) else p)
  else d ++ [(k, v)]

/-- Membership in a `collections.Counter` (key present). -/
def counterMem (f : List (Word × Nat)) (w : Word) : Bool :=
  (f.find? (fun p => p.1 == w)).isSome

/-- Value lookup `f.get(w, 0)` on a Counter. -/
def counterGet (f : List (Word × Nat)) (w : Word) : Nat :=
  ((f.find? (fun p => p.1 == w)).map (·.2)).getD 0

/-- Increment `f[w] += 1` on a Counter. -/
def counterIncr (f : List (Word × Nat)) (w : Word) : List (Word × Nat) :=
  if (f.find? (fun p => p.1 == w)).isSome then
    f.map (fun p => if p.1 == w then (p.1, p.2 + 1) else p)
  else f ++ [(w, 1)]

/-- The curated correction table `known_corrections` of `SpellCorrector`. -/
def known_corrections : List (Word × Word) :=
  [ (chars "harry poter", chars "harry potter"),
    (chars "hary potter", chars "harry potter"),
    (chars "harrry potter", chars "harry potter"),
    (chars "lord of the ring", chars "lord of the rings"),
    (chars "starwars", chars "star wars"),
    (chars "star war", chars "star wars"),
    (chars "beatles", chars "the beatles"),
    (chars "shakespear", chars "shakespeare"),
    (chars "shakspeare", chars "shakespeare"),
    (chars "romeo juliet", chars "romeo and juliet"),
    (chars "micheal jackson", chars "michael jackson"),
    (chars "micheal", chars "michael"),
    (chars "lenon", chars "lennon"),
    (chars "beethovn", chars "beethoven"),
    (chars "mozard", chars "mozart"),
    (chars "tolstoi", chars "tolstoy"),
    (chars "dostoevsky", chars "dostoyevsky"),
    (chars "hemmingway", chars "hemingway"),
    (chars "fitzgerld", chars "fitzgerald") ]

/-- The curated concatenation table `known_splits` of `_try_split_words`. -/
def known_splits : List (Word × Word) :=
  [ (chars "harrypotter", chars "harry potter"),
    (chars "lordoftherings", chars "lord of the rings"),
    (chars "starwars", chars "star wars"),
    (chars "gameofthrones", chars "game of thrones") ]

/-- Mutable state of a `SpellCorrector` instance: learned corrections,
word frequencies and known valid titles. -/
structure SpellState where
  learned_corrections : List (Word × Word)
  word_freq : List (Word × Nat)
  known_titles : List Word

/-- The freshly constructed `SpellCorrector()` state. -/
def emptySpellState : SpellState :=
  { learned_corrections := [], word_freq := [], known_titles := [] }

/-- Embedding of `SpellCorrector._edits1`: all strings one edit away
(deletions, transpositions, replacements, insertions over a-z).  Python
collects them in a `set`; the model keeps the generation order as a list,
which only matters for the unspecified tie-break in `_correct_word`. -/
def edits1 (word : Word) : List Word :=
  let letters := chars "abcdefghijklmnopqrstuvwxyz"
  let splits := (List.range (word.length + 1)).map (fun i => (word.take i, word.drop i))
  let deletes := splits.filterMap (fun p => match p.2 with
    | [] => none
    | _ :: rest => some (p.1 ++ rest))
  let transposes := splits.filterMap (fun p => match p.2 with
    | a :: b :: rest => some (p.1 ++ b :: a :: rest)
    | _ => none)
  let replaces := splits.flatMap (fun p => match p.2 with
    | [] => []
    | _ :: rest => letters.map (fun c => p.1 ++ c :: rest))
  let inserts := splits.flatMap (fun p => letters.map (fun c => p.1 ++ c :: p.2))
  deletes ++ transposes ++ replaces ++ inserts

/-- Embedding of `SpellCorrector._get_candidates`: vocabulary words at
edit distance 1, else at edit distance 2. -/
def get_candidates (st : SpellState) (word : Word) : List Word :=
  let e1 := edits1 word
  let c1 := e1.filter (counterMem st.word_freq)
  if c1 ≠ [] then c1
  else (e1.flatMap edits1).filter (counterMem st.word_freq)

/-- Embedding of `SpellCorrector._correct_word`.  Python's
`max(candidates, key=...)` returns the first maximal element in set
iteration order; the model takes the first maximal element in generation
order (the upstream tie-break is unspecified, see the spec design notes). -/
def correct_word (st : SpellState) (word : Word) : Word :=
  if word.length < 3 then word
  else if counterMem st.word_freq word then word
  else
    let cands := get_candidates st word
    match cands with
    | [] => word
    | c :: cs => cs.foldl (fun best w =>
        if counterGet st.word_freq w > counterGet st.word_freq best then w else best) c

/-- Embedding of the greedy longest-prefix loop of
`SpellCorrector._split_words`, with the remaining suffix length as
structural fuel (each iteration consumes at least one character, so fuel
equal to the initial length is never exhausted). -/
def split_words_go (st : SpellState) : Nat → List Char → List Word
  | 0, _ => []
  | _ + 1, [] => []
  | fuel + 1, c :: rest =>
    let remaining := c :: rest
    let ends := (List.range remaining.length).map (fun i => remaining.length - i)
    match ends.findSome? (fun e =>
      let cand := remaining.take e
      if counterMem st.word_freq cand ∧ cand.length ≥ 2 then
        some (cand, remaining.drop e)
      else none) with
    | some p => p.1 :: split_words_go st fuel p.2
    | none => [c] :: split_words_go st fuel rest

/-- Embedding of `SpellCorrector._split_words`. -/
def split_words (st : SpellState) (text : Word) : Word :=
  if st.word_freq = [] then text
  else joinWords (split_words_go st text.length text)

/-- Embedding of `SpellCorrector._try_split_words`: curated splits, then
dynamic splitting; `None` when nothing multi-word is produced. -/
def try_split_words (U : UnicodePrims) (st : SpellState) (text : Word) : Option Word :=
  match dictLookup known_splits text with
  | some s => some s
  | none =>
    let result := split_words st text
    if result ≠ [] ∧ (splitWs U result).length > 1 then some result else none

/-- Embedding of `SpellCorrector.correct`: curated table, learned map,
known titles, per-word correction, then concatenation splitting. -/
def correct (U : UnicodePrims) (st : SpellState) (text : Word) : Word × Bool :=
  if text = [] then (text, false)
  else
    let original := stripWs U (pyLower U text)
    match dictLookup known_corrections original with
    | some c => (c, true)
    | none =>
      match dictLookup st.learned_corrections original with
      | some c => (c, true)
      | none =>
        if original ∈ st.known_titles then (text, false)
        else
          let words := splitWs U original
          let step := words.map (fun word =>
            match dictLookup known_corrections word with
            | some c => (c, true)
            | none =>
              match dictLookup st.learned_corrections word with
              | some c => (c, true)
              | none =>
                let cw := correct_word st word
                (cw, cw ≠ word))
          let corrected := joinWords (step.map (·.1))
          let was := step.any (·.2)
          if ¬ was ∧ ¬ (' ' ∈ original) then
            match try_split_words U st original with
            | some sr => if sr ≠ [] ∧ sr ≠ original then (sr, true) else (corrected, was)
            | none => (corrected, was)
          else (corrected, was)

/-- Embedding of `SpellCorrector.learn_from_search`: store the correction
when the lowercased/stripped query and title differ, add the title to the
known titles, bump word frequencies of the title's words. -/
def learn_from_search (U : UnicodePrims) (st : SpellState)
    (query selected_title : Word) : SpellState :=
  let query_normalized := stripWs U (pyLower U query)
  let title_normalized := stripWs U (pyLower U selected_title)
  let learned :=
    if query_normalized ≠ title_normalized then
      dictInsert st.learned_corrections query_normalized title_normalized
    else st.learned_corrections
  let titles :=
    if title_normalized ∈ st.known_titles then st.known_titles
    else st.known_titles ++ [title_normalized]
  let freq := (splitWs U title_normalized).foldl counterIncr st.word_freq
  { learned_corrections := learned, word_freq := freq, known_titles := titles }

theorem dictLookup_dictInsert (d : List (Word × Word)) (k v : Word) :
    dictLookup (dictInsert d k v) k = some v := by
  induction d with
  | nil => simp [dictInsert, dictLookup]
  | cons p d' ih =>
    by_cases hp : p.1 == k
    · simp only [dictInsert, List.find?, hp, Option.isSome_some, if_true, List.map_cons]
      simp [dictLookup, hp]
    · simp only [dictInsert, List.find?, hp, List.map_cons, if_neg]
      by_cases hfound : (d'.find? (fun q => q.1 == k)).isSome
      · simp only [hfound, if_true]
        simp only [dictInsert, hfound, if_true] at ih
        simpa [dictLookup, List.find?, hp] using ih
      · simp only [hfound, if_false, Bool.false_eq_true]
        simp only [dictInsert, hfound, if_false, Bool.false_eq_true] at ih
        simpa [dictLookup, List.find?, hp] using ih

/-- C5 (amended). After `learn_from_search(q, t)` where the
lowercased/stripped query is not in the curated table and differs from the
lowercased/stripped title, `correct(q)` returns the lowercased/stripped
title with the corrected flag set. -/
theorem learn_then_correct (U : UnicodePrims) (st : SpellState) (q t : Word)
    (hq : q ≠ [])
    (hcur : dictLookup known_corrections (stripWs U (pyLower U q)) = none)
    (hne : stripWs U (pyLower U q) ≠ stripWs U (pyLower U t)) :
    correct U (learn_from_search U st q t) q = (stripWs U (pyLower U t), true) := by
  unfold correct
  rw [if_neg hq]
  have hlearned : (learn_from_search U st q t).learned_corrections =
      dictInsert st.learned_corrections (stripWs U (pyLower U q))
        (stripWs U (pyLower U t)) := by
    simp [learn_from_search, hne]
  simp only [hcur, hlearned, dictLookup_dictInsert]

/-- Witness for C5 (amended) at a concrete query/title pair. -/
theorem learn_then_correct_witness :
    correct asciiPrims
        (learn_from_search asciiPrims emptySpellState (chars "abcd") (chars "Xy z"))
        (chars "abcd") =
      (stripWs asciiPrims (pyLower asciiPrims (chars "Xy z")), true) :=
  learn_then_correct asciiPrims emptySpellState (chars "abcd") (chars "Xy z")
    (by decide) (by decide) (by decide)

/-- Counterexample to C5 as stated: with the curated misspelling
"harry poter" as query and title "abc", the normalized query and title
differ, yet after learning, `correct` returns the curated correction
"harry potter" (the curated table is consulted before the learned map),
not the normalized title. -/
theorem learn_then_correct_counterexample :
    normalize_title asciiPrims (chars "harry poter") ≠
        normalize_title asciiPrims (chars "abc") ∧
      correct asciiPrims
          (learn_from_search asciiPrims emptySpellState (chars "harry poter") (chars "abc"))
          (chars "harry poter") ≠
        (normalize_title asciiPrims (chars "abc"), true) := by
  constructor
  · decide
  · decide

/-- C10. When the lowercased/stripped input matches no curated correction,
no learned correction and no known title, every word survives per-word
correction unchanged, and concatenation splitting produces nothing new,
`correct` returns the whitespace-normalized lowercased input with the
corrected flag still false. -/
theorem correct_unmatched (U : UnicodePrims) (st : SpellState) (text : Word)
    (hne : text ≠ [])
    (hcur : dictLookup known_corrections (stripWs U (pyLower U text)) = none)
    (hlearn : dictLookup st.learned_corrections (stripWs U (pyLower U text)) = none)
    (htitle : stripWs U (pyLower U text) ∉ st.known_titles)
    (hwords : ∀ w ∈ splitWs U (stripWs U (pyLower U text)),
        dictLookup known_corrections w = none ∧
        dictLookup st.learned_corrections w = none ∧
        correct_word st w = w)
    (hsplit : (' ' ∉ stripWs U (pyLower U text)) →
        try_split_words U st (stripWs U (pyLower U text)) = none ∨
        try_split_words U st (stripWs U (pyLower U text)) = some [] ∨
        try_split_words U st (stripWs U (pyLower U text)) =
          some (stripWs U (pyLower U text))) :
    correct U st text = (joinWords (splitWs U (pyLower U text)), false) := by
  unfold correct
  rw [if_neg hne]
  simp only [hcur, hlearn, if_neg htitle]
  set original := stripWs U (pyLower U text) with horig
  have hstep : (splitWs U original).map (fun word =>
      match dictLookup known_corrections word with
      | some c => (c, true)
      | none =>
        match dictLookup st.learned_corrections word with
        | some c => (c, true)
        | none =>
          let cw := correct_word st word
          (cw, decide (cw ≠ word))) =
      (splitWs U original).map (fun word => (word, false)) := by
    apply List.map_congr_left
    intro w hw
    obtain ⟨h1, h2, h3⟩ := hwords w hw
    simp [h1, h2, h3]
  rw [hstep]
  have hjoin : joinWords (splitWs U original) = joinWords (splitWs U (pyLower U text)) := by
    rw [horig, splitWs_stripWs]
  by_cases hsp : (' ' ∈ original)
  · simp [hsp, hjoin, Function.comp_def]
  · rcases hsplit hsp with h | h | h <;> simp [hsp, h, hjoin, Function.comp_def]

/-- Witness for C10: an uppercase two-word query in a fresh corrector is
returned lowercased with the flag still false. -/
theorem correct_unmatched_witness :
    correct asciiPrims emptySpellState (chars "AB CD") =
      (joinWords (splitWs asciiPrims (pyLower asciiPrims (chars "AB CD"))), false) ∧
    chars "AB CD" ≠ joinWords (splitWs asciiPrims (pyLower asciiPrims (chars "AB CD"))) :=
  ⟨correct_unmatched asciiPrims emptySpellState (chars "AB CD")
      (by decide) (by decide) (by decide) (by decide) (by decide) (by decide),
    by decide⟩

-- ===================================================================
-- Fuzzy matching (src/backend/app/ai_search/semantic_search.py,
-- class FuzzyMatcher)
-- ===================================================================

/-- Edit distance computed by the dynamic-programming table of
`FuzzyMatcher.levenshtein_ratio`, written as its defining recurrence:
the table satisfies `distances[i][0] = i`, `distances[0][j] = j` and
`distances[i][j] = min(del + 1, ins + 1, diag + cost)`. -/
def levenshteinDist : List Char → List Char → Nat
  | [], s2 => s2.length
  | s1, [] => s1.length
  | c1 :: s1, c2 :: s2 =>
    min (levenshteinDist s1 (c2 :: s2) + 1)
      (min (levenshteinDist (c1 :: s1) s2 + 1)
        (levenshteinDist s1 s2 + (if c1 = c2 then 0 else 1)))

/-- Embedding of `FuzzyMatcher.levenshtein_ratio`: zero on an empty
argument, otherwise one minus the normalized edit distance of the
lowercased strings. -/
noncomputable def levenshtein_ratio (U : UnicodePrims) (s1 s2 : Word) : ℝ :=
  if s1 = [] ∨ s2 = [] then 0
  else
    let t1 := pyLower U s1
    let t2 := pyLower U s2
    if t1 = t2 then 1
    else 1 - (levenshteinDist t1 t2 : ℝ) / ((max t1.length t2.length : ℕ) : ℝ)

/-- Embedding of `FuzzyMatcher.token_set_ratio`: Jaccard similarity of
the lowercased word sets. -/
noncomputable def token_set_ratio (U : UnicodePrims) (s1 s2 : Word) : ℝ :=
  if s1 = [] ∨ s2 = [] then 0
  else
    let t1 := (splitWs U (pyLower U s1)).toFinset
    let t2 := (splitWs U (pyLower U s2)).toFinset
    if t1 = ∅ ∨ t2 = ∅ then 0
    else ((t1 ∩ t2).card : ℝ) / (((t1 ∪ t2).card : ℕ) : ℝ)

/-- Embedding of `FuzzyMatcher.partial_ratio`: best sliding-window
Levenshtein ratio of the shorter lowercased string over the longer. -/
noncomputable def partial_ratio (U : UnicodePrims) (s1 s2 : Word) : ℝ :=
  if s1 = [] ∨ s2 = [] then 0
  else
    let t1 := pyLower U s1
    let t2 := pyLower U s2
    let p := if t1.length > t2.length then (t2, t1) else (t1, t2)
    (List.range (p.2.length - p.1.length + 1)).foldl
      (fun best i => max best (levenshtein_ratio U p.1 ((p.2.drop i).take p.1.length))) 0

/-- Embedding of `FuzzyMatcher.combined_score`. -/
noncomputable def combined_score (U : UnicodePrims) (s1 s2 : Word) : ℝ :=
  0.4 * levenshtein_ratio U s1 s2 + 0.3 * token_set_ratio U s1 s2 +
    0.3 * partial_ratio U s1 s2

-- ===================================================================
-- Semantic matching (src/backend/app/ai_search/semantic_search.py,
-- class SemanticMatcher, TF-IDF fallback mode)
-- ===================================================================

/-- A 384-dimensional embedding vector (`_compute_tfidf_vector` always
truncates or pads its result to 384 entries). -/
abbrev Vec384 := Fin 384 → ℝ

/-- The vocabulary update loop of `_compute_tfidf_vector`: append each
unseen word (Python dict insertion preserves existing indices). -/
def extendVocab (vocab : List Word) (ws : List Word) : List Word :=
  ws.foldl (fun v w => if w ∈ v then v else v ++ [w]) vocab

/-- Entry `i` of the raw TF-IDF vector of `_compute_tfidf_vector`:
term frequency of the i-th vocabulary word in the text times its IDF
weight (`_idf_scores.get(word, 1.0)`, modelled as a total function),
zero beyond the vocabulary. -/
noncomputable def tfidfEntry (vocab : List Word) (idf : Word → ℝ) (ws : List Word) (i : ℕ) : ℝ :=
  match vocab[i]? with
  | some w => (((ws.count w : ℕ) : ℝ) / ((ws.length : ℕ) : ℝ)) * idf w
  | none => 0

/-- Euclidean norm of the full raw vector (size `max(len(vocab), 384)`)
used for the normalization step of `_compute_tfidf_vector`. -/
noncomputable def tfidfNorm (vocab : List Word) (idf : Word → ℝ) (ws : List Word) : ℝ :=
  Real.sqrt (∑ i ∈ Finset.range (max vocab.length 384), tfidfEntry vocab idf ws i ^ 2)

/-- The stored embedding: the raw vector divided by its norm when the
norm is positive, truncated to 384 entries. -/
noncomputable def tfidfVec (vocab : List Word) (idf : Word → ℝ) (ws : List Word) : Vec384 :=
  fun i =>
    if tfidfNorm vocab idf ws > 0 then
      tfidfEntry vocab idf ws i.1 / tfidfNorm vocab idf ws
    else tfidfEntry vocab idf ws i.1

/-- Embedding of `SemanticMatcher.compute_embedding` in TF-IDF fallback
mode, with the vocabulary state threaded explicitly.  The embedding cache
is semantically transparent here: a cached vector was computed from the
same word list under a prefix of the current vocabulary (the vocabulary is
append-only) and the same IDF table (`update_idf` has no caller in the
repository), which yields the identical vector. -/
noncomputable def compute_embedding (U : UnicodePrims) (vocab : List Word)
    (idf : Word → ℝ) (text : Word) : Vec384 × List Word :=
  if text = [] then (fun _ => 0, vocab)
  else
    let normalized := normalize_title U text
    let ws := splitWs U (pyLower U normalized)
    let vocab2 := extendVocab vocab ws
    (tfidfVec vocab2 idf ws, vocab2)

/-- Embedding of `SemanticMatcher._cosine_similarity`. -/
noncomputable def cosine_similarity (v1 v2 : Vec384) : ℝ :=
  let n1 := Real.sqrt (∑ i, v1 i ^ 2)
  let n2 := Real.sqrt (∑ i, v2 i ^ 2)
  if n1 = 0 ∨ n2 = 0 then 0 else (∑ i, v1 i * v2 i) / (n1 * n2)

/-- Embedding of `SemanticMatcher.compute_similarity` (TF-IDF fallback
mode): embed both texts, threading the vocabulary growth of the first
call into the second, and take the cosine. -/
noncomputable def compute_similarity (U : UnicodePrims) (vocab : List Word)
    (idf : Word → ℝ) (text1 text2 : Word) : ℝ :=
  let p1 := compute_embedding U vocab idf text1
  let p2 := compute_embedding U p1.2 idf text2
  cosine_similarity p1.1 p2.1

-- ===================================================================
-- Relevance scoring (src/backend/app/ai_search/search_engine.py)
-- ===================================================================

/-- Model of the persisted `WorkMetadata` record
(src/backend/app/database/models.py).  Timestamps are abstract ticks;
floats are rationals. -/
structure WorkMetadata where
  id : Nat
  title : Word
  title_normalized : Word
  creator : Option Word
  creator_death_year : Option Int
  publication_year : Option Int
  content_type : Option Word
  source_url : Word
  source_name : Word
  data_confidence : ℚ
  copyright_status : Word
  created_at : Nat
  updated_at : Nat
  last_verified_at : Option Nat
deriving DecidableEq

/-- Model of the query-analysis dict produced by
`AISearchEngine._analyze_query`; the scorer reads only
`min_word_match_ratio`. -/
structure QueryAnalysis where
  is_technical : Bool
  is_multi_word : Bool
  is_phrase : Bool
  suggested_type : Option Word
  word_count : Nat
  min_word_match_ratio : ℝ

/-- The search-configuration weights set in `AISearchEngine.__init__`. -/
def exact_weight : ℝ := 0.35
def phrase_weight : ℝ := 0.25
def semantic_weight : ℝ := 0.25
def fuzzy_weight : ℝ := 0.15

/-- The exact-match component of `_calculate_relevance_score`: 1.0 on
equality, 0.85 when the query is a substring of the title, 0.6 the other
way round. -/
noncomputable def exact_match_component (nq nt : Word) : ℝ :=
  if nq = nt then 1
  else if nq <:+: nt then 0.85
  else if nt <:+: nq then 0.6
  else 0

/-- The `word_overlap_ratio` of `_calculate_relevance_score`: fraction of
query words occurring (as substrings) in the normalized title. -/
noncomputable def word_overlap_ratio (U : UnicodePrims) (nq nt : Word) : ℝ :=
  ((((splitWs U nq).filter (fun w => decide (w <:+: nt))).length : ℕ) : ℝ) /
    (((splitWs U nq).length : ℕ) : ℝ)

/-- The `consecutive_matches` count of `_calculate_relevance_score`:
number of adjacent query-word bigrams occurring in the normalized
title. -/
def consecutive_matches (U : UnicodePrims) (nq nt : Word) : Nat :=
  ((List.range ((splitWs U nq).length - 1)).filter
    (fun i => decide (((splitWs U nq).getD i [] ++ ' ' :: (splitWs U nq).getD (i + 1) [])
      <:+: nt))).length

/-- The multi-word phrase score of `_calculate_relevance_score`:
overlap-weighted base plus contiguity bonus, with the times-0.2 penalty
when the overlap ratio is below `min_word_match_ratio`. -/
noncomputable def phrase_base (U : UnicodePrims) (nq nt : Word) : ℝ :=
  word_overlap_ratio U nq nt * 0.7 +
    (if consecutive_matches U nq nt > 0 then
      0.3 * ((consecutive_matches U nq nt : ℝ) / ((((splitWs U nq).length - 1 : ℕ)) : ℝ))
    else 0)

/-- The penalty step of the multi-word phrase score. -/
noncomputable def phrase_multi (U : UnicodePrims) (qa : QueryAnalysis) (nq nt : Word) : ℝ :=
  if word_overlap_ratio U nq nt < qa.min_word_match_ratio then phrase_base U nq nt * 0.2
  else phrase_base U nq nt

/-- The phrase/word-overlap component of `_calculate_relevance_score`. -/
noncomputable def phrase_component (U : UnicodePrims) (qa : QueryAnalysis) (nq nt : Word) : ℝ :=
  if (splitWs U nq).length > 1 then phrase_multi U qa nq nt
  else if nq ∈ splitWs U nt then 0.8
  else if nq <:+: nt then 0.5
  else 0

/-- The data-confidence boost `(work.data_confidence or 0.5) * 0.05`
(Python `or` replaces a zero as well as a missing value by 0.5). -/
noncomputable def confidence_boost (dc : ℚ) : ℝ :=
  ((if dc = 0 then (0.5 : ℚ) else dc : ℚ) : ℝ) * 0.05

/-- Embedding of `AISearchEngine._calculate_relevance_score`: exact,
phrase, fuzzy and semantic components plus a data-confidence boost,
capped at 1.0; the fuzzy weight is halved for multi-word queries.
`vocab`/`idf` are the semantic matcher state; `work.title or ""` is the
identity here since the title column is not nullable. -/
noncomputable def calculate_relevance_score (U : UnicodePrims)
    (vocab : List Word) (idf : Word → ℝ)
    (query : Word) (work : WorkMetadata) (qa : QueryAnalysis) : ℝ :=
  let nq := pyLower U (normalize_title U query)
  let nt := pyLower U (normalize_title U work.title)
  let combined :=
    if (splitWs U nq).length > 1 then
      exact_weight * exact_match_component nq nt +
        phrase_weight * phrase_component U qa nq nt +
        semantic_weight * compute_similarity U vocab idf query work.title +
        fuzzy_weight * combined_score U query work.title * 0.5 +
        confidence_boost work.data_confidence
    else
      exact_weight * exact_match_component nq nt +
        phrase_weight * phrase_component U qa nq nt +
        semantic_weight * compute_similarity U vocab idf query work.title +
        fuzzy_weight * combined_score U query work.title +
        confidence_boost work.data_confidence
  min combined 1

theorem levenshteinDist_le_max :
    ∀ s1 s2 : List Char, levenshteinDist s1 s2 ≤ max s1.length s2.length := by
  intro s1
  induction s1 with
  | nil => intro s2; simp [levenshteinDist]
  | cons c1 t1 ih =>
    intro s2
    cases s2 with
    | nil => simp [levenshteinDist]
    | cons c2 t2 =>
      have h3 := ih t2
      have hcost : (if c1 = c2 then 0 else 1) ≤ 1 := by split <;> simp
      have hstep : levenshteinDist (c1 :: t1) (c2 :: t2) ≤
          levenshteinDist t1 t2 + (if c1 = c2 then 0 else 1) := by
        rw [levenshteinDist]
        exact le_trans (min_le_right _ _) (min_le_right _ _)
      have : levenshteinDist (c1 :: t1) (c2 :: t2) ≤ max t1.length t2.length + 1 := by
        omega
      simpa [Nat.succ_le_succ_iff] using by omega

theorem levenshtein_ratio_bounds (U : UnicodePrims) (s1 s2 : Word) :
    0 ≤ levenshtein_ratio U s1 s2 ∧ levenshtein_ratio U s1 s2 ≤ 1 := by
  unfold levenshtein_ratio
  by_cases h0 : s1 = [] ∨ s2 = []
  · simp [h0]
  · rw [if_neg h0]
    set t1 := pyLower U s1
    set t2 := pyLower U s2
    by_cases heq : t1 = t2
    · simp [heq]
    · rw [if_neg heq]
      have hmaxpos : 0 < (max t1.length t2.length : ℕ) := by
        rcases Nat.eq_zero_or_pos (max t1.length t2.length) with h | h
        · exfalso
          have h1 : t1.length = 0 := by omega
          have h2 : t2.length = 0 := by omega
          exact heq (by rw [List.length_eq_zero.mp h1, List.length_eq_zero.mp h2])
        · exact h
      have hmaxpos' : (0 : ℝ) < ((max t1.length t2.length : ℕ) : ℝ) := by
        exact_mod_cast hmaxpos
      have hle : (levenshteinDist t1 t2 : ℝ) ≤ ((max t1.length t2.length : ℕ) : ℝ) := by
        exact_mod_cast levenshteinDist_le_max t1 t2
      constructor
      · have : (levenshteinDist t1 t2 : ℝ) / ((max t1.length t2.length : ℕ) : ℝ) ≤ 1 :=
          (div_le_one hmaxpos').mpr hle
        linarith
      · have : 0 ≤ (levenshteinDist t1 t2 : ℝ) / ((max t1.length t2.length : ℕ) : ℝ) :=
          div_nonneg (by positivity) (le_of_lt hmaxpos')
        linarith

theorem token_set_ratio_bounds (U : UnicodePrims) (s1 s2 : Word) :
    0 ≤ token_set_ratio U s1 s2 ∧ token_set_ratio U s1 s2 ≤ 1 := by
  unfold token_set_ratio
  by_cases h0 : s1 = [] ∨ s2 = []
  · simp [h0]
  · rw [if_neg h0]
    set t1 := (splitWs U (pyLower U s1)).toFinset
    set t2 := (splitWs U (pyLower U s2)).toFinset
    by_cases hempty : t1 = ∅ ∨ t2 = ∅
    · simp [hempty]
    · rw [if_neg hempty]
      push_neg at hempty
      have hsub : t1 ∩ t2 ⊆ t1 ∪ t2 :=
        subset_trans Finset.inter_subset_left Finset.subset_union_left
      have hcardle : (t1 ∩ t2).card ≤ (t1 ∪ t2).card := Finset.card_le_card hsub
      have hupos : 0 < (t1 ∪ t2).card := by
        rcases Finset.nonempty_iff_ne_empty.mpr hempty.1 with ⟨x, hx⟩
        exact Finset.card_pos.mpr ⟨x, Finset.mem_union_left _ hx⟩
      have hupos' : (0 : ℝ) < (((t1 ∪ t2).card : ℕ) : ℝ) := by exact_mod_cast hupos
      constructor
      · exact div_nonneg (by positivity) (le_of_lt hupos')
      · exact (div_le_one hupos').mpr (by exact_mod_cast hcardle)

theorem foldl_max_bounds (f : ℕ → ℝ) (hf : ∀ i, 0 ≤ f i ∧ f i ≤ 1) :
    ∀ (l : List ℕ) (init : ℝ), 0 ≤ init → init ≤ 1 →
      0 ≤ l.foldl (fun best i => max best (f i)) init ∧
      l.foldl (fun best i => max best (f i)) init ≤ 1 := by
  intro l
  induction l with
  | nil => intro init h0 h1; exact ⟨h0, h1⟩
  | cons i rest ih =>
    intro init h0 h1
    exact ih (max init (f i)) (le_trans h0 (le_max_left _ _))
      (max_le h1 (hf i).2)

theorem partial_ratio_bounds (U : UnicodePrims) (s1 s2 : Word) :
    0 ≤ partial_ratio U s1 s2 ∧ partial_ratio U s1 s2 ≤ 1 := by
  unfold partial_ratio
  by_cases h0 : s1 = [] ∨ s2 = []
  · simp [h0]
  · rw [if_neg h0]
    exact foldl_max_bounds _
      (fun i => levenshtein_ratio_bounds U _ _) _ 0 le_rfl zero_le_one

theorem combined_score_bounds (U : UnicodePrims) (s1 s2 : Word) :
    0 ≤ combined_score U s1 s2 ∧ combined_score U s1 s2 ≤ 1 := by
  obtain ⟨hl0, hl1⟩ := levenshtein_ratio_bounds U s1 s2
  obtain ⟨ht0, ht1⟩ := token_set_ratio_bounds U s1 s2
  obtain ⟨hp0, hp1⟩ := partial_ratio_bounds U s1 s2
  unfold combined_score
  constructor <;> nlinarith

theorem cosine_similarity_bounds (v1 v2 : Vec384)
    (h : ∀ i, 0 ≤ v1 i * v2 i) :
    0 ≤ cosine_similarity v1 v2 ∧ cosine_similarity v1 v2 ≤ 1 := by
  unfold cosine_similarity
  set n1 := Real.sqrt (∑ i, v1 i ^ 2) with hn1
  set n2 := Real.sqrt (∑ i, v2 i ^ 2) with hn2
  by_cases hz : n1 = 0 ∨ n2 = 0
  · simp [hz]
  · rw [if_neg hz]
    push_neg at hz
    have hn1pos : 0 < n1 := lt_of_le_of_ne (Real.sqrt_nonneg _) (Ne.symm hz.1)
    have hn2pos : 0 < n2 := lt_of_le_of_ne (Real.sqrt_nonneg _) (Ne.symm hz.2)
    have hdot : 0 ≤ ∑ i, v1 i * v2 i := Finset.sum_nonneg (fun i _ => h i)
    have hcs : ∑ i, v1 i * v2 i ≤ n1 * n2 := by
      rw [hn1, hn2]
      exact Real.sum_mul_le_sqrt_mul_sqrt Finset.univ v1 v2
    constructor
    · exact div_nonneg hdot (le_of_lt (mul_pos hn1pos hn2pos))
    · exact (div_le_one (mul_pos hn1pos hn2pos)).mpr hcs

theorem extendVocab_grows : ∀ (ws : List Word) (vocab : List Word),
    vocab <+: extendVocab vocab ws := by
  intro ws
  induction ws with
  | nil => intro vocab; simp [extendVocab]
  | cons w rest ih =>
    intro vocab
    unfold extendVocab
    simp only [List.foldl_cons]
    by_cases hw : w ∈ vocab
    · simp only [hw, if_true]
      exact ih vocab
    · simp only [hw, if_false]
      exact List.IsPrefix.trans (List.prefix_append vocab [w]) (ih (vocab ++ [w]))

theorem tfidfEntry_mul_nonneg (vocab1 vocab2 : List Word) (idf : Word → ℝ)
    (ws1 ws2 : List Word) (hpre : vocab1 <+: vocab2) (i : ℕ) :
    0 ≤ tfidfEntry vocab1 idf ws1 i * tfidfEntry vocab2 idf ws2 i := by
  unfold tfidfEntry
  cases hv1 : vocab1[i]? with
  | none => simp
  | some w =>
    have hi : i < vocab1.length := by
      by_contra hge
      simp [List.getElem?_eq_none (Nat.le_of_not_lt hge)] at hv1
    have hle : i < vocab2.length := lt_of_lt_of_le hi hpre.length_le
    have hv2 : vocab2[i]? = some w := by
      rw [List.getElem?_eq_getElem hle, ← hpre.getElem hi,
        ← List.getElem?_eq_getElem hi, hv1]
    rw [hv2]
    have h1 : 0 ≤ (((ws1.count w : ℕ) : ℝ) / ((ws1.length : ℕ) : ℝ)) := by positivity
    have h2 : 0 ≤ (((ws2.count w : ℕ) : ℝ) / ((ws2.length : ℕ) : ℝ)) := by positivity
    calc (0 : ℝ) ≤ ((((ws1.count w : ℕ) : ℝ) / ((ws1.length : ℕ) : ℝ)) *
          (((ws2.count w : ℕ) : ℝ) / ((ws2.length : ℕ) : ℝ))) * idf w ^ 2 := by positivity
    _ = (((ws1.count w : ℕ) : ℝ) / ((ws1.length : ℕ) : ℝ) * idf w) *
          ((((ws2.count w : ℕ) : ℝ) / ((ws2.length : ℕ) : ℝ)) * idf w) := by ring

theorem tfidfVec_mul_nonneg (vocab1 vocab2 : List Word) (idf : Word → ℝ)
    (ws1 ws2 : List Word) (hpre : vocab1 <+: vocab2) (i : Fin 384) :
    0 ≤ tfidfVec vocab1 idf ws1 i * tfidfVec vocab2 idf ws2 i := by
  have hbase := tfidfEntry_mul_nonneg vocab1 vocab2 idf ws1 ws2 hpre i.1
  unfold tfidfVec
  by_cases h1 : tfidfNorm vocab1 idf ws1 > 0 <;>
    by_cases h2 : tfidfNorm vocab2 idf ws2 > 0 <;>
    simp only [h1, h2, if_true, if_false] <;>
    [skip; skip; skip; exact hbase]
  · rw [div_mul_div_comm]
    exact div_nonneg hbase (by positivity)
  · rw [div_mul_eq_mul_div]
    exact div_nonneg hbase (le_of_lt h1)
  · rw [← mul_div_assoc]
    exact div_nonneg hbase (le_of_lt h2)

theorem compute_similarity_bounds (U : UnicodePrims) (vocab : List Word)
    (idf : Word → ℝ) (text1 text2 : Word) :
    0 ≤ compute_similarity U vocab idf text1 text2 ∧
    compute_similarity U vocab idf text1 text2 ≤ 1 := by
  unfold compute_similarity
  apply cosine_similarity_bounds
  intro i
  unfold compute_embedding
  by_cases h1 : text1 = []
  · simp [h1]
  · by_cases h2 : text2 = []
    · simp [h1, h2]
    · simp only [h1, h2, if_false]
      exact tfidfVec_mul_nonneg _ _ idf _ _ (extendVocab_grows _ _) i

theorem exact_match_component_bounds (nq nt : Word) :
    0 ≤ exact_match_component nq nt ∧ exact_match_component nq nt ≤ 1 := by
  unfold exact_match_component
  split_ifs <;> norm_num

theorem word_overlap_ratio_nonneg (U : UnicodePrims) (nq nt : Word) :
    0 ≤ word_overlap_ratio U nq nt := by
  unfold word_overlap_ratio
  positivity

theorem phrase_component_nonneg (U : UnicodePrims) (qa : QueryAnalysis) (nq nt : Word) :
    0 ≤ phrase_component U qa nq nt := by
  unfold phrase_component
  have hb : 0 ≤ phrase_base U nq nt := by
    unfold phrase_base
    have h1 := word_overlap_ratio_nonneg U nq nt
    have h2 : (0 : ℝ) ≤ (if consecutive_matches U nq nt > 0 then
        0.3 * ((consecutive_matches U nq nt : ℝ) /
          ((((splitWs U nq).length - 1 : ℕ)) : ℝ)) else 0) := by
      split <;> positivity
    nlinarith
  have hbase : 0 ≤ phrase_multi U qa nq nt := by
    unfold phrase_multi
    split_ifs <;> nlinarith
  split_ifs <;> norm_num [hbase]

theorem confidence_boost_nonneg (dc : ℚ) (h : 0 ≤ dc) : 0 ≤ confidence_boost dc := by
  unfold confidence_boost
  split_ifs with h0
  · norm_num
  · have : (0 : ℝ) ≤ (dc : ℝ) := by exact_mod_cast h
    nlinarith

/-- C3. The relevance score lies in the closed interval [0, 1] for every
query, record with nonnegative stored confidence, and query analysis
(and every semantic-matcher state). -/
theorem calculate_relevance_score_bounds (U : UnicodePrims)
    (vocab : List Word) (idf : Word → ℝ)
    (query : Word) (work : WorkMetadata) (qa : QueryAnalysis)
    (hconf : 0 ≤ work.data_confidence) :
    0 ≤ calculate_relevance_score U vocab idf query work qa ∧
    calculate_relevance_score U vocab idf query work qa ≤ 1 := by
  have hexact := exact_match_component_bounds
    (pyLower U (normalize_title U query)) (pyLower U (normalize_title U work.title))
  have hphrase := phrase_component_nonneg U qa
    (pyLower U (normalize_title U query)) (pyLower U (normalize_title U work.title))
  have hsem := compute_similarity_bounds U vocab idf query work.title
  have hfuzzy := combined_score_bounds U query work.title
  have hboost := confidence_boost_nonneg work.data_confidence hconf
  unfold calculate_relevance_score
  simp only [exact_weight, phrase_weight, semantic_weight, fuzzy_weight]
  constructor
  · apply le_min _ zero_le_one
    split_ifs <;> nlinarith
  · exact min_le_right _ _

/-- Witness for C3 at a concrete query, record and analysis. -/
theorem calculate_relevance_score_bounds_witness :
    0 ≤ calculate_relevance_score asciiPrims [] (fun _ => 1) (chars "gatsby")
        { id := 1, title := chars "The Great Gatsby",
          title_normalized := chars "the great gatsby",
          creator := none, creator_death_year := none, publication_year := some 1925,
          content_type := some (chars "book"), source_url := [], source_name := [],
          data_confidence := 0, copyright_status := chars "unknown",
          created_at := 0, updated_at := 0, last_verified_at := none }
        { is_technical := false, is_multi_word := false, is_phrase := false,
          suggested_type := none, word_count := 1, min_word_match_ratio := 0.3 } ∧
    calculate_relevance_score asciiPrims [] (fun _ => 1) (chars "gatsby")
        { id := 1, title := chars "The Great Gatsby",
          title_normalized := chars "the great gatsby",
          creator := none, creator_death_year := none, publication_year := some 1925,
          content_type := some (chars "book"), source_url := [], source_name := [],
          data_confidence := 0, copyright_status := chars "unknown",
          created_at := 0, updated_at := 0, last_verified_at := none }
        { is_technical := false, is_multi_word := false, is_phrase := false,
          suggested_type := none, word_count := 1, min_word_match_ratio := 0.3 } ≤ 1 :=
  calculate_relevance_score_bounds asciiPrims [] (fun _ => 1) (chars "gatsby") _ _
    le_rfl

/-- C4. When the normalized title equals the normalized query, the
relevance score is at least 0.35 (the record's stored confidence being
nonnegative, per the data model). -/
theorem exact_match_score_ge (U : UnicodePrims)
    (vocab : List Word) (idf : Word → ℝ)
    (query : Word) (work : WorkMetadata) (qa : QueryAnalysis)
    (hconf : 0 ≤ work.data_confidence)
    (hmatch : normalize_title U query = normalize_title U work.title) :
    0.35 ≤ calculate_relevance_score U vocab idf query work qa := by
  have heq : pyLower U (normalize_title U query) =
      pyLower U (normalize_title U work.title) := by rw [hmatch]
  have hexact : exact_match_component (pyLower U (normalize_title U query))
      (pyLower U (normalize_title U work.title)) = 1 := by
    unfold exact_match_component
    rw [if_pos heq]
  have hphrase := phrase_component_nonneg U qa
    (pyLower U (normalize_title U query)) (pyLower U (normalize_title U work.title))
  have hsem := compute_similarity_bounds U vocab idf query work.title
  have hfuzzy := combined_score_bounds U query work.title
  have hboost := confidence_boost_nonneg work.data_confidence hconf
  unfold calculate_relevance_score
  simp only [exact_weight, phrase_weight, semantic_weight, fuzzy_weight, hexact]
  apply le_min _ (by norm_num)
  split_ifs <;> nlinarith

/-- Witness for C4 at a concrete exactly-matching query and record. -/
theorem exact_match_score_ge_witness :
    0.35 ≤ calculate_relevance_score asciiPrims [] (fun _ => 1)
        (chars "The Great Gatsby")
        { id := 1, title := chars "The Great Gatsby",
          title_normalized := chars "the great gatsby",
          creator := none, creator_death_year := none, publication_year := some 1925,
          content_type := some (chars "book"), source_url := [], source_name := [],
          data_confidence := 0, copyright_status := chars "unknown",
          created_at := 0, updated_at := 0, last_verified_at := none }
        { is_technical := false, is_multi_word := true, is_phrase := true,
          suggested_type := none, word_count := 3, min_word_match_ratio := 0.7 } :=
  exact_match_score_ge asciiPrims [] (fun _ => 1) (chars "The Great Gatsby") _ _
    le_rfl rfl

-- ===================================================================
-- Ranking and deduplication (AISearchEngine._rank_and_deduplicate)
-- ===================================================================

/-- The dedup loop of `_rank_and_deduplicate`: keep an entry when its
normalized title has not been seen, recording seen titles. -/
def dedupByTitle (U : UnicodePrims) :
    List (WorkMetadata × ℚ) → List Word → List (WorkMetadata × ℚ)
  | [], _ => []
  | p :: ps, seen =>
    let n := normalize_title U p.1.title
    if n ∈ seen then dedupByTitle U ps seen
    else p :: dedupByTitle U ps (seen ++ [n])

/-- Embedding of `AISearchEngine._rank_and_deduplicate`: filter by
minimum score, deduplicate by normalized title keeping the first
occurrence, sort by score descending (Python's stable sort, modelled by
a stable merge sort), truncate to `max_results`. -/
def rank_and_deduplicate (U : UnicodePrims) (results : List (WorkMetadata × ℚ))
    (max_results : Nat) (min_score : ℚ := 0.15) : List (WorkMetadata × ℚ) :=
  let filtered_results := results.filter (fun p => min_score ≤ p.2)
  let unique_results := dedupByTitle U filtered_results []
  let sorted := unique_results.mergeSort (fun a b => decide (b.2 ≤ a.2))
  sorted.take max_results

theorem dedupByTitle_sublist (U : UnicodePrims) :
    ∀ (l : List (WorkMetadata × ℚ)) (seen : List Word),
      (dedupByTitle U l seen).Sublist l := by
  intro l
  induction l with
  | nil => intro seen; simp [dedupByTitle]
  | cons p ps ih =>
    intro seen
    simp only [dedupByTitle]
    split
    · exact (ih seen).trans (List.sublist_cons_self p ps)
    · exact (ih _).cons₂ p

theorem mem_dedupByTitle (U : UnicodePrims) :
    ∀ (l : List (WorkMetadata × ℚ)) (seen : List Word) (p : WorkMetadata × ℚ),
      p ∈ dedupByTitle U l seen →
        normalize_title U p.1.title ∉ seen ∧
        l.find? (fun x => decide (normalize_title U x.1.title =
          normalize_title U p.1.title)) = some p := by
  intro l
  induction l with
  | nil => intro seen p hp; simp [dedupByTitle] at hp
  | cons q ps ih =>
    intro seen p hp
    unfold dedupByTitle at hp
    by_cases hseen : normalize_title U q.1.title ∈ seen
    · simp only [hseen, if_true] at hp
      obtain ⟨hnot, hfind⟩ := ih seen p hp
      have hne : normalize_title U q.1.title ≠ normalize_title U p.1.title := by
        intro h; exact hnot (h ▸ hseen)
      refine ⟨hnot, ?_⟩
      rw [List.find?_cons]
      simp only [decide_eq_false hne]
      exact hfind
    · simp only [hseen, if_false] at hp
      rcases List.mem_cons.mp hp with rfl | hp
      · refine ⟨hseen, ?_⟩
        rw [List.find?_cons]
        simp
      · obtain ⟨hnot, hfind⟩ := ih _ p hp
        have hnotseen : normalize_title U p.1.title ∉ seen := by
          intro h; exact hnot (List.mem_append_left _ h)
        have hne : normalize_title U q.1.title ≠ normalize_title U p.1.title := by
          intro h
          exact hnot (List.mem_append_right _ (by simp [h]))
        refine ⟨hnotseen, ?_⟩
        rw [List.find?_cons]
        simp only [decide_eq_false hne]
        exact hfind

theorem dedupByTitle_pairwise (U : UnicodePrims) :
    ∀ (l : List (WorkMetadata × ℚ)) (seen : List Word),
      List.Pairwise (fun a b => normalize_title U a.1.title ≠ normalize_title U b.1.title)
        (dedupByTitle U l seen) := by
  intro l
  induction l with
  | nil => intro seen; simp [dedupByTitle]
  | cons p ps ih =>
    intro seen
    simp only [dedupByTitle]
    split
    · exact ih seen
    · refine List.Pairwise.cons ?_ (ih _)
      intro b hb
      have := (mem_dedupByTitle U ps _ b hb).1
      intro hEq
      exact this (List.mem_append_right _ (by simp [hEq]))

/-- C6. With the default minimum score 0.15, `_rank_and_deduplicate`
returns a list with pairwise-distinct normalized titles, no score below
the minimum, sorted by score descending, of length at most
`max_results`, and every returned entry is the first occurrence of its
normalized title among the score-filtered input. -/
theorem rank_and_deduplicate_spec (U : UnicodePrims)
    (results : List (WorkMetadata × ℚ)) (max_results : Nat) :
    List.Pairwise (fun a b => normalize_title U a.1.title ≠ normalize_title U b.1.title)
      (rank_and_deduplicate U results max_results) ∧
    (∀ p ∈ rank_and_deduplicate U results max_results, (0.15 : ℚ) ≤ p.2) ∧
    List.Pairwise (fun a b : WorkMetadata × ℚ => b.2 ≤ a.2)
      (rank_and_deduplicate U results max_results) ∧
    (rank_and_deduplicate U results max_results).length ≤ max_results ∧
    (∀ p ∈ rank_and_deduplicate U results max_results,
      (results.filter (fun q => (0.15 : ℚ) ≤ q.2)).find?
        (fun x => decide (normalize_title U x.1.title = normalize_title U p.1.title)) =
        some p) := by
  unfold rank_and_deduplicate
  set filtered := results.filter (fun p => (0.15 : ℚ) ≤ p.2) with hfil
  set uniq := dedupByTitle U filtered [] with huniq
  set sorted := uniq.mergeSort (fun a b => decide (b.2 ≤ a.2)) with hsorted
  have hperm : sorted.Perm uniq := List.mergeSort_perm uniq _
  have hmemout : ∀ p, p ∈ sorted.take max_results → p ∈ uniq := by
    intro p hp
    exact hperm.mem_iff.mp ((List.take_sublist _ _).mem hp)
  refine ⟨?_, ?_, ?_, ?_, ?_⟩
  · have hpw : List.Pairwise
        (fun a b => normalize_title U a.1.title ≠ normalize_title U b.1.title) sorted := by
      rw [List.Perm.pairwise_iff (by intro a b h hba; exact h hba.symm) hperm]
      exact dedupByTitle_pairwise U filtered []
    exact List.Pairwise.sublist (List.take_sublist _ _) hpw
  · intro p hp
    have hmem : p ∈ filtered := (dedupByTitle_sublist U filtered []).subset (hmemout p hp)
    have := List.of_mem_filter hmem
    exact of_decide_eq_true this
  · have hsortpw : List.Pairwise (fun a b : WorkMetadata × ℚ =>
        (fun a b => decide (b.2 ≤ a.2)) a b = true) sorted := by
      apply List.sorted_mergeSort
      · intro a b c hab hbc
        simp only [decide_eq_true_eq] at hab hbc ⊢
        exact le_trans hbc hab
      · intro a b
        simp only [Bool.or_eq_true, decide_eq_true_eq]
        exact le_total b.2 a.2
    have : List.Pairwise (fun a b : WorkMetadata × ℚ => b.2 ≤ a.2) sorted :=
      hsortpw.imp (fun h => of_decide_eq_true h)
    exact List.Pairwise.sublist (List.take_sublist _ _) this
  · rw [List.length_take]
    exact min_le_left _ _
  · intro p hp
    exact (mem_dedupByTitle U filtered [] p (hmemout p hp)).2

-- ===================================================================
-- Source orchestrator (src/backend/app/data_collection/scrapers.py,
-- class WebScraper)
-- ===================================================================

/-- Model of a transient `ScrapedWork` candidate.  `scraped_at` is an
abstract tick; floats are rationals. -/
structure ScrapedWork where
  title : Word
  creator : Option Word
  publication_year : Option Int
  creator_death_year : Option Int
  content_type : Option Word
  source_url : Word
  source_name : Word
  description : Option Word
  confidence : ℚ
  scraped_at : Nat
deriving DecidableEq

/-- The keys of the `WebScraper.scrapers` dict, in insertion order. -/
def allScraperNames : List Word :=
  [chars "openlib", chars "wikipedia", chars "musicbrainz", chars "imdb",
   chars "github", chars "patent", chars "trademark", chars "academic",
   chars "indian_copyright", chars "innovation", chars "startup", chars "research"]

/-- The content-type routing table of `WebScraper.search_all` (the
`elif` chain selecting `scrapers_to_use`); an absent or unrecognized
type selects every scraper. -/
def scrapers_to_use (content_type : Option Word) : List Word :=
  match content_type with
  | none => allScraperNames
  | some t =>
    if t = chars "book" then [chars "openlib", chars "wikipedia", chars "indian_copyright"]
    else if t = chars "music" then
      [chars "musicbrainz", chars "wikipedia", chars "indian_copyright"]
    else if t = chars "film" then [chars "imdb", chars "wikipedia", chars "indian_copyright"]
    else if t ∈ [chars "software", chars "code", chars "library"] then
      [chars "github", chars "indian_copyright", chars "innovation"]
    else if t = chars "patent" then [chars "patent", chars "wikipedia", chars "innovation"]
    else if t = chars "trademark" then [chars "trademark"]
    else if t = chars "academic_paper" then [chars "academic", chars "research"]
    else if t ∈ [chars "project", chars "innovation", chars "drone", chars "technology"] then
      [chars "innovation", chars "research", chars "wikipedia", chars "patent"]
    else if t ∈ [chars "company", chars "startup"] then [chars "startup", chars "wikipedia"]
    else if t = chars "research_project" then
      [chars "research", chars "innovation", chars "academic"]
    else allScraperNames

/-- The `type_groups` equivalence table of `WebScraper.search_all`. -/
def type_groups : List (Word × List Word) :=
  [ (chars "software", [chars "software", chars "code", chars "library"]),
    (chars "code", [chars "software", chars "code", chars "library"]),
    (chars "library", [chars "software", chars "code", chars "library"]),
    (chars "book", [chars "book"]),
    (chars "music", [chars "music"]),
    (chars "film", [chars "film", chars "movie"]),
    (chars "patent", [chars "patent"]),
    (chars "trademark", [chars "trademark"]),
    (chars "academic_paper", [chars "academic_paper", chars "article", chars "research_paper"]),
    (chars "project", [chars "project", chars "innovation_project",
      chars "research_project", chars "product"]),
    (chars "innovation", [chars "project", chars "innovation_project",
      chars "product", chars "technology"]),
    (chars "drone", [chars "project", chars "innovation_project",
      chars "product", chars "technology", chars "drone"]),
    (chars "technology", [chars "project", chars "innovation_project",
      chars "product", chars "technology"]),
    (chars "company", [chars "company", chars "startup_company"]),
    (chars "startup", [chars "company", chars "startup_company"]),
    (chars "research_project", [chars "research_project", chars "academic_paper",
      chars "project"]) ]

/-- `type_groups.get(content_type, [content_type])`. -/
def allowed_types (t : Word) : List Word :=
  (((type_groups.find? (fun p => p.1 == t)).map (·.2)).getD [t])

/-- The per-candidate filter of `search_all` when a type is requested:
`r.content_type in allowed_types or r.content_type == content_type`
(an absent candidate type passes neither test). -/
def typeFilterOk (t : Word) (r : ScrapedWork) : Bool :=
  match r.content_type with
  | none => false
  | some ct => ct ∈ allowed_types t || ct = t

/-- The outcome of one adapter task under `asyncio.gather(...,
return_exceptions=True)`: an exception value or a candidate list. -/
abbrev AdapterOutcome := Except Unit (List ScrapedWork)

/-- Embedding of `WebScraper.search_all`.  `outcomes` gives each named
scraper's task result for the query (exceptions are values, as under
`return_exceptions=True`); results are concatenated skipping failures,
filtered by the type-equivalence table when a (truthy) type is
requested, and sorted by confidence descending.  The function is total:
no adapter outcome can make it fail. -/
def search_all (outcomes : Word → Word → Option Word → AdapterOutcome)
    (query : Word) (content_type : Option Word) : List ScrapedWork :=
  let names := scrapers_to_use content_type
  let gathered := names.map (fun n => outcomes n query content_type)
  let all_results := gathered.foldl (fun acc r =>
    match r with
    | .error _ => acc
    | .ok l => acc ++ l) []
  let filtered :=
    match content_type with
    | some t => if t = [] then all_results else all_results.filter (typeFilterOk t)
    | none => all_results
  filtered.mergeSort (fun a b => decide (b.confidence ≤ a.confidence))

/-- C7. When every selected adapter fails or returns nothing,
`search_all` returns the empty list (and, being a total function over
adapter outcomes including exceptions, never raises). -/
theorem search_all_all_failing (outcomes : Word → Word → Option Word → AdapterOutcome)
    (query : Word) (content_type : Option Word)
    (hfail : ∀ n ∈ scrapers_to_use content_type,
      outcomes n query content_type = .error () ∨ outcomes n query content_type = .ok []) :
    search_all outcomes query content_type = [] := by
  simp only [search_all]
  have hall : ∀ (names : List Word), (∀ n ∈ names,
      outcomes n query content_type = .error () ∨ outcomes n query content_type = .ok []) →
      (names.map (fun n => outcomes n query content_type)).foldl (fun acc r =>
        match r with
        | .error _ => acc
        | .ok l => acc ++ l) [] = [] := by
    intro names
    induction names with
    | nil => intro _; rfl
    | cons n rest ih =>
      intro h
      rcases h n (by simp) with h1 | h1 <;>
        simp only [List.map_cons, List.foldl_cons, h1] <;>
        exact ih (fun m hm => h m (by simp [hm]))
  rw [hall _ hfail]
  cases content_type with
  | none => simp
  | some t =>
    by_cases ht : t = [] <;> simp [ht]

/-- Witness for C7: all adapters raising yields the empty list. -/
theorem search_all_all_failing_witness :
    search_all (fun _ _ _ => .error ()) (chars "anything") (some (chars "book")) = [] :=
  search_all_all_failing (fun _ _ _ => .error ()) (chars "anything")
    (some (chars "book")) (fun _ _ => Or.inl rfl)

/-- C8. When a (nonempty) content type is requested, every candidate
returned by `search_all` carries a content type inside the requested
type's equivalence group (the `type_groups` row, or the type itself);
no candidate with an absent or out-of-group type is returned. -/
theorem search_all_type_filtered (outcomes : Word → Word → Option Word → AdapterOutcome)
    (query : Word) (t : Word) (ht : t ≠ [])
    (r : ScrapedWork) (hr : r ∈ search_all outcomes query (some t)) :
    ∃ ct, r.content_type = some ct ∧ (ct ∈ allowed_types t ∨ ct = t) := by
  simp only [search_all, if_neg ht] at hr
  have hmem := (List.mergeSort_perm _ _).mem_iff.mp hr
  have hok := List.of_mem_filter hmem
  unfold typeFilterOk at hok
  cases hct : r.content_type with
  | none => rw [hct] at hok; simp at hok
  | some ct =>
    rw [hct] at hok
    simp only [Bool.or_eq_true, decide_eq_true_eq] at hok
    exact ⟨ct, rfl, by simpa using hok⟩

/-- A concrete book candidate used to exercise the type filter. -/
def bookCand : ScrapedWork :=
  { title := chars "Moby Dick", creator := some (chars "Herman Melville"),
    publication_year := some 1851, creator_death_year := some 1891,
    content_type := some (chars "book"), source_url := chars "http",
    source_name := chars "Open Library", description := none,
    confidence := mkRat 9 10, scraped_at := 0 }

/-- Witness for C8: a returned candidate of a book-typed search carries a
type inside the book equivalence group. -/
theorem search_all_type_filtered_witness :
    ∃ ct, bookCand.content_type = some ct ∧
      (ct ∈ allowed_types (chars "book") ∨ ct = chars "book") :=
  search_all_type_filtered
    (fun n _ _ => if n = chars "openlib" then .ok [bookCand] else .error ())
    (chars "moby dick") (chars "book") (by decide) bookCand
    (by simp only [search_all]
        exact (List.mergeSort_perm _ _).mem_iff.mpr (by decide))

-- ===================================================================
-- Record merger (src/backend/app/data_collection/collector.py,
-- DataCollector._process_and_store / _update_work)
-- ===================================================================

/-- Python truthiness of an optional string field (both `None` and the
empty string are falsy). -/
def pyTruthyStr : Option Word → Bool
  | none => false
  | some s => !s.isEmpty

/-- Python truthiness of an optional integer field (both `None` and `0`
are falsy). -/
def pyTruthyInt : Option Int → Bool
  | none => false
  | some n => n != 0

/-- Embedding of `DataCollector._update_work`: back-fill falsy fields,
raise the confidence when the candidate's is strictly higher, refresh
the timestamps. -/
def update_work (now : Nat) (existing : WorkMetadata) (new_data : ScrapedWork) :
    WorkMetadata :=
  { existing with
    creator :=
      if pyTruthyStr new_data.creator && !pyTruthyStr existing.creator then
        new_data.creator
      else existing.creator,
    creator_death_year :=
      if pyTruthyInt new_data.creator_death_year &&
          !pyTruthyInt existing.creator_death_year then
        new_data.creator_death_year
      else existing.creator_death_year,
    publication_year :=
      if pyTruthyInt new_data.publication_year &&
          !pyTruthyInt existing.publication_year then
        new_data.publication_year
      else existing.publication_year,
    data_confidence :=
      if new_data.confidence > existing.data_confidence then new_data.confidence
      else existing.data_confidence,
    updated_at := now,
    last_verified_at := some now }

/-- The duplicate lookup of `_process_and_store`:
`filter(title_normalized == tn, content_type == work.content_type)`.
Comparing a column to Python `None` is SQL `IS NULL`, so an absent
candidate type matches only records with a NULL stored type. -/
def lookup_matches (tn : Word) (ct : Option Word) (r : WorkMetadata) : Bool :=
  r.title_normalized == tn &&
    (match ct with
     | none => r.content_type == none
     | some t => r.content_type == some t)

/-- The record inserted by `_process_and_store` when no duplicate is
found; a falsy candidate type is stored as "unknown"
(`work.content_type or "unknown"`). -/
def new_record (U : UnicodePrims) (now : Nat) (w : ScrapedWork) : WorkMetadata :=
  { id := 0,
    title := w.title,
    title_normalized := normalize_title U w.title,
    creator := w.creator,
    creator_death_year := w.creator_death_year,
    publication_year := w.publication_year,
    content_type := some (match w.content_type with
      | some t => if t = [] then chars "unknown" else t
      | none => chars "unknown"),
    source_url := w.source_url,
    source_name := w.source_name,
    data_confidence := w.confidence,
    copyright_status := chars "unknown",
    created_at := now,
    updated_at := now,
    last_verified_at := none }

/-- One iteration of the `_process_and_store` loop for one candidate:
the first record matching the duplicate lookup is updated in place when
the candidate is strictly more confident (otherwise left alone), and a
new record is inserted when no record matches. -/
def merge_candidate (U : UnicodePrims) (now : Nat) (w : ScrapedWork) :
    List WorkMetadata → List WorkMetadata
  | [] => [new_record U now w]
  | r :: rs =>
    if lookup_matches (normalize_title U w.title) w.content_type r then
      if w.confidence > r.data_confidence then update_work now r w :: rs
      else r :: rs
    else r :: merge_candidate U now w rs

/-- Embedding of `DataCollector._process_and_store`: fold the candidate
list over the store. -/
def process_and_store (U : UnicodePrims) (now : Nat) (works : List ScrapedWork)
    (db : List WorkMetadata) : List WorkMetadata :=
  works.foldl (fun db w => merge_candidate U now w db) db

/-- A high-confidence candidate with no creator. -/
def candHighNoCreator : ScrapedWork :=
  { title := chars "Moby Dick", creator := none, publication_year := none,
    creator_death_year := none, content_type := some (chars "book"),
    source_url := [], source_name := chars "src1", description := none,
    confidence := mkRat 9 10, scraped_at := 0 }

/-- A lower-confidence candidate for the same key carrying a creator. -/
def candLowWithCreator : ScrapedWork :=
  { title := chars "Moby Dick", creator := some (chars "Herman Melville"),
    publication_year := none, creator_death_year := none,
    content_type := some (chars "book"),
    source_url := [], source_name := chars "src2", description := none,
    confidence := mkRat 7 10, scraped_at := 0 }

/-- An untyped candidate. -/
def candUntyped1 : ScrapedWork :=
  { title := chars "Moby Dick", creator := none, publication_year := none,
    creator_death_year := none, content_type := none,
    source_url := [], source_name := chars "src1", description := none,
    confidence := mkRat 7 10, scraped_at := 0 }

/-- A second untyped candidate for the same title. -/
def candUntyped2 : ScrapedWork :=
  { title := chars "Moby Dick", creator := none, publication_year := none,
    creator_death_year := none, content_type := none,
    source_url := [], source_name := chars "src2", description := none,
    confidence := mkRat 8 10, scraped_at := 0 }

/-- Counterexample to C1 as stated: the second candidate shares the
stored record's key and carries a creator, the stored creator is empty,
yet after the merge the creator is still empty — back-filling is gated
on candidate.confidence > stored.confidence, not independent of it.
(The confidence does equal the maximum.) -/
theorem process_backfill_counterexample :
    pyTruthyStr candLowWithCreator.creator = true ∧
    normalize_title asciiPrims candLowWithCreator.title =
      normalize_title asciiPrims candHighNoCreator.title ∧
    candLowWithCreator.content_type = candHighNoCreator.content_type ∧
    (process_and_store asciiPrims 1 [candHighNoCreator, candLowWithCreator] []).map
        (fun r => (r.title_normalized, r.content_type, r.creator, r.data_confidence)) =
      [(chars "moby dick", some (chars "book"), none, mkRat 9 10)] := by
  decide

/-- Counterexample to C2 as stated: two candidates with an absent
content type and the same title each create a record — the duplicate
lookup compares the stored type against SQL NULL while the insert stores
"unknown", so the second candidate inserts instead of updating. -/
theorem process_untyped_duplicate_counterexample :
    (process_and_store asciiPrims 1 [candUntyped1, candUntyped2] []).map
        (fun r => (r.title_normalized, r.content_type)) =
      [(chars "moby dick", some (chars "unknown")),
       (chars "moby dick", some (chars "unknown"))] := by
  decide

theorem merge_candidate_skips_front (U : UnicodePrims) (now : Nat) (w : ScrapedWork) :
    ∀ (pre rest : List WorkMetadata),
      (∀ x ∈ pre, lookup_matches (normalize_title U w.title) w.content_type x = false) →
      merge_candidate U now w (pre ++ rest) = pre ++ merge_candidate U now w rest := by
  intro pre
  induction pre with
  | nil => intro rest _; simp
  | cons x xs ih =>
    intro rest h
    have hx : lookup_matches (normalize_title U w.title) w.content_type x = false :=
      h x (by simp)
    simp only [List.cons_append, merge_candidate, hx, Bool.false_eq_true, if_false,
      List.append_eq]
    rw [ih rest (fun y hy => h y (by simp [hy]))]

theorem merge_candidate_no_match (U : UnicodePrims) (now : Nat) (w : ScrapedWork)
    (db : List WorkMetadata)
    (h : ∀ x ∈ db, lookup_matches (normalize_title U w.title) w.content_type x = false) :
    merge_candidate U now w db = db ++ [new_record U now w] := by
  have := merge_candidate_skips_front U now w db [] h
  simpa [merge_candidate] using this

theorem update_work_key (now : Nat) (ex : WorkMetadata) (w : ScrapedWork) :
    (update_work now ex w).title_normalized = ex.title_normalized ∧
    (update_work now ex w).content_type = ex.content_type := ⟨rfl, rfl⟩

theorem process_and_store_shared_key_aux (U : UnicodePrims) (now : Nat)
    (tn : Word) (t : Word) :
    ∀ (ws : List ScrapedWork) (db : List WorkMetadata) (rec : WorkMetadata),
      (∀ w ∈ ws, normalize_title U w.title = tn ∧ w.content_type = some t) →
      (∀ r ∈ db, lookup_matches tn (some t) r = false) →
      rec.title_normalized = tn → rec.content_type = some t →
      ∃ rec', process_and_store U now ws (db ++ [rec]) = db ++ [rec'] ∧
        rec'.title_normalized = tn ∧ rec'.content_type = some t ∧
        (rec'.data_confidence = rec.data_confidence ∨
          rec'.data_confidence ∈ ws.map (·.confidence)) ∧
        rec.data_confidence ≤ rec'.data_confidence ∧
        ∀ w ∈ ws, w.confidence ≤ rec'.data_confidence := by
  intro ws
  induction ws with
  | nil =>
    intro db rec _ _ h1 h2
    exact ⟨rec, rfl, h1, h2, Or.inl rfl, le_rfl, by simp⟩
  | cons w ws' ih =>
    intro db rec hws hdb h1 h2
    obtain ⟨hwtn, hwct⟩ := hws w (by simp)
    have hmatch : lookup_matches (normalize_title U w.title) w.content_type rec = true := by
      unfold lookup_matches
      rw [hwtn, hwct, h1, h2]
      simp
    have hstep : merge_candidate U now w (db ++ [rec]) =
        db ++ merge_candidate U now w [rec] := by
      apply merge_candidate_skips_front
      intro x hx
      rw [hwtn, hwct]
      exact hdb x hx
    have hone : merge_candidate U now w [rec] =
        [if w.confidence > rec.data_confidence then update_work now rec w else rec] := by
      simp only [merge_candidate, hmatch, if_true]
      split <;> rfl
    set rec2 := if w.confidence > rec.data_confidence then update_work now rec w else rec
      with hrec2
    have h1' : rec2.title_normalized = tn := by
      rw [hrec2]; split
      · exact (update_work_key now rec w).1.trans h1
      · exact h1
    have h2' : rec2.content_type = some t := by
      rw [hrec2]; split
      · exact (update_work_key now rec w).2.trans h2
      · exact h2
    have hconf2 : rec2.data_confidence =
        if w.confidence > rec.data_confidence then w.confidence
        else rec.data_confidence := by
      rw [hrec2]; split
      · simp [update_work, *]
      · simp [*]
    obtain ⟨rec', hproc, ha, hb, hc, hd, he⟩ :=
      ih db rec2 (fun x hx => hws x (by simp [hx])) hdb h1' h2'
    refine ⟨rec', ?_, ha, hb, ?_, ?_, ?_⟩
    · show process_and_store U now (w :: ws') (db ++ [rec]) = db ++ [rec']
      unfold process_and_store
      rw [List.foldl_cons, hstep, hone]
      exact hproc
    · rcases hc with hc | hc
      · rw [hconf2] at hc
        split at hc
        · exact Or.inr (by simp [hc])
        · exact Or.inl hc
      · exact Or.inr (by simp [hc])
    · refine le_trans ?_ hd
      rw [hconf2]
      split
      · exact le_of_lt (by assumption)
      · exact le_rfl
    · intro x hx
      rcases List.mem_cons.mp hx with rfl | hx
      · refine le_trans ?_ hd
        rw [hconf2]
        split
        · exact le_rfl
        · exact le_of_not_lt (by assumption)
      · exact he x hx

/-- C1 (amended). When a candidate's (normalizedTitle, contentType) key
matches a stored record, the record is modified at all only if
candidate.confidence > stored.confidence; in that case the confidence
becomes the candidate's, the refresh timestamps are updated, and every
empty field among creator/creatorDeathYear/publicationYear is back-filled
from the candidate, a populated field never being overwritten.
Consequently, merging N candidates sharing one present (nonempty) typed
key into a store without that key yields the store plus a single new
record whose confidence is the maximum of the candidates' confidences. -/
theorem process_and_store_merge_spec (U : UnicodePrims) (now : Nat) :
    (∀ (w : ScrapedWork) (db : List WorkMetadata) (r : WorkMetadata),
      db.find? (lookup_matches (normalize_title U w.title) w.content_type) = some r →
      ¬ (w.confidence > r.data_confidence) →
      merge_candidate U now w db = db) ∧
    (∀ (w : ScrapedWork) (db : List WorkMetadata) (r : WorkMetadata),
      db.find? (lookup_matches (normalize_title U w.title) w.content_type) = some r →
      w.confidence > r.data_confidence →
      ∃ pre post, db = pre ++ r :: post ∧
        merge_candidate U now w db = pre ++ update_work now r w :: post) ∧
    (∀ (ex : WorkMetadata) (w : ScrapedWork),
      (update_work now ex w).data_confidence = max w.confidence ex.data_confidence ∧
      (update_work now ex w).updated_at = now ∧
      (update_work now ex w).last_verified_at = some now ∧
      (pyTruthyStr ex.creator = true → (update_work now ex w).creator = ex.creator) ∧
      (pyTruthyStr ex.creator = false → pyTruthyStr w.creator = true →
        (update_work now ex w).creator = w.creator) ∧
      (pyTruthyInt ex.creator_death_year = true →
        (update_work now ex w).creator_death_year = ex.creator_death_year) ∧
      (pyTruthyInt ex.creator_death_year = false →
        pyTruthyInt w.creator_death_year = true →
        (update_work now ex w).creator_death_year = w.creator_death_year) ∧
      (pyTruthyInt ex.publication_year = true →
        (update_work now ex w).publication_year = ex.publication_year) ∧
      (pyTruthyInt ex.publication_year = false →
        pyTruthyInt w.publication_year = true →
        (update_work now ex w).publication_year = w.publication_year)) ∧
    (∀ (ws : List ScrapedWork) (db : List WorkMetadata) (tn t : Word),
      ws ≠ [] → t ≠ [] →
      (∀ w ∈ ws, normalize_title U w.title = tn ∧ w.content_type = some t) →
      (∀ r ∈ db, lookup_matches tn (some t) r = false) →
      ∃ rec, process_and_store U now ws db = db ++ [rec] ∧
        rec.title_normalized = tn ∧ rec.content_type = some t ∧
        rec.data_confidence ∈ ws.map (·.confidence) ∧
        ∀ w ∈ ws, w.confidence ≤ rec.data_confidence) := by
  refine ⟨?_, ?_, ?_, ?_⟩
  · -- no modification without strictly higher confidence
    intro w db r hfind hle
    obtain ⟨hpr, pre, post, rfl, hpre⟩ := List.find?_eq_some.mp hfind
    rw [merge_candidate_skips_front U now w pre (r :: post)
      (fun x hx => by simpa using hpre x hx)]
    simp only [merge_candidate, hpr, if_true, if_neg hle]
  · -- in-place update on strictly higher confidence
    intro w db r hfind hgt
    obtain ⟨hpr, pre, post, rfl, hpre⟩ := List.find?_eq_some.mp hfind
    refine ⟨pre, post, rfl, ?_⟩
    rw [merge_candidate_skips_front U now w pre (r :: post)
      (fun x hx => by simpa using hpre x hx)]
    simp only [merge_candidate, hpr, if_true, if_pos hgt]
  · -- field-level behaviour of the update
    intro ex w
    refine ⟨?_, rfl, rfl, ?_, ?_, ?_, ?_, ?_, ?_⟩
    · simp only [update_work]
      rcases lt_or_ge ex.data_confidence w.confidence with h | h
      · rw [if_pos h, max_eq_left (le_of_lt h)]
      · rw [if_neg (not_lt_of_ge h), max_eq_right h]
    · intro h; simp [update_work, h]
    · intro h1 h2; simp [update_work, h1, h2]
    · intro h; simp [update_work, h]
    · intro h1 h2; simp [update_work, h1, h2]
    · intro h; simp [update_work, h]
    · intro h1 h2; simp [update_work, h1, h2]
  · -- N candidates sharing one present key produce one record with max confidence
    intro ws db tn t hws ht hkey hdb
    cases ws with
    | nil => exact absurd rfl hws
    | cons w ws' =>
      obtain ⟨hwtn, hwct⟩ := hkey w (by simp)
      have hnomatch : ∀ r ∈ db,
          lookup_matches (normalize_title U w.title) w.content_type r = false := by
        intro r hr
        rw [hwtn, hwct]
        exact hdb r hr
      have hfirst : merge_candidate U now w db = db ++ [new_record U now w] :=
        merge_candidate_no_match U now w db hnomatch
      have hrecnt : (new_record U now w).title_normalized = tn := by
        simp [new_record, hwtn]
      have hrecct : (new_record U now w).content_type = some t := by
        simp [new_record, hwct, ht]
      obtain ⟨rec', hproc, ha, hb, hc, hd, he⟩ :=
        process_and_store_shared_key_aux U now tn t ws' db (new_record U now w)
          (fun x hx => hkey x (by simp [hx])) hdb hrecnt hrecct
      refine ⟨rec', ?_, ha, hb, ?_, ?_⟩
      · unfold process_and_store
        rw [List.foldl_cons, hfirst]
        exact hproc
      · rcases hc with hc | hc
        · exact List.mem_map.mpr ⟨w, by simp, by
            simpa [new_record] using hc.symm⟩
        · rcases List.mem_map.mp hc with ⟨x, hx, hxe⟩
          exact List.mem_map.mpr ⟨x, by simp [hx], hxe⟩
      · intro x hx
        rcases List.mem_cons.mp hx with rfl | hx
        · have : (new_record U now x).data_confidence = x.confidence := rfl
          exact this ▸ hd
        · exact he x hx

/-- Witness for C1 (amended): merging the two same-key candidates into an
empty store yields one record carrying the maximum confidence. -/
theorem process_and_store_merge_spec_witness :
    ∃ rec, process_and_store asciiPrims 1 [candHighNoCreator, candLowWithCreator] [] =
        [] ++ [rec] ∧
      rec.title_normalized = chars "moby dick" ∧
      rec.content_type = some (chars "book") ∧
      rec.data_confidence ∈ [candHighNoCreator, candLowWithCreator].map (·.confidence) ∧
      ∀ w ∈ [candHighNoCreator, candLowWithCreator],
        w.confidence ≤ rec.data_confidence :=
  (process_and_store_merge_spec asciiPrims 1).2.2.2
    [candHighNoCreator, candLowWithCreator] [] (chars "moby dick") (chars "book")
    (by decide) (by decide) (by decide) (by decide)

/-- The dedup key of a stored record. -/
def record_key (r : WorkMetadata) : Word × Option Word :=
  (r.title_normalized, r.content_type)

/-- Number of stored records carrying a given key. -/
def countKey (db : List WorkMetadata) (k : Word × Option Word) : Nat :=
  db.countP (fun r => decide (record_key r = k))

theorem new_record_key (U : UnicodePrims) (now : Nat) (w : ScrapedWork)
    (t : Word) (hct : w.content_type = some t) (ht : t ≠ []) :
    record_key (new_record U now w) = (normalize_title U w.title, some t) := by
  simp [record_key, new_record, hct, ht]

theorem lookup_matches_iff_key (tn : Word) (t : Word) (r : WorkMetadata) :
    lookup_matches tn (some t) r = true ↔ record_key r = (tn, some t) := by
  unfold lookup_matches record_key
  constructor
  · intro h
    simp only [Bool.and_eq_true, beq_iff_eq] at h
    simp [h.1, h.2]
  · intro h
    have h1 : r.title_normalized = tn := congrArg Prod.fst h
    have h2 : r.content_type = some t := congrArg Prod.snd h
    simp [h1, h2]

theorem countKey_merge_ne (U : UnicodePrims) (now : Nat) (w : ScrapedWork)
    (t : Word) (hct : w.content_type = some t) (ht : t ≠ [])
    (k : Word × Option Word) (hk : k ≠ (normalize_title U w.title, some t)) :
    ∀ db : List WorkMetadata,
      countKey (merge_candidate U now w db) k = countKey db k := by
  intro db
  induction db with
  | nil =>
    simp only [merge_candidate, countKey, List.countP_cons, List.countP_nil]
    rw [new_record_key U now w t hct ht]
    simp [Ne.symm hk]
  | cons r rs ih =>
    by_cases hm : lookup_matches (normalize_title U w.title) w.content_type r = true
    · simp only [merge_candidate, hm, if_true]
      split
      · simp only [countKey, List.countP_cons]
        have : record_key (update_work now r w) = record_key r := by
          simp [record_key, update_work]
        rw [this]
      · rfl
    · simp only [merge_candidate, hm, Bool.false_eq_true, if_false]
      simp only [countKey, List.countP_cons] at ih ⊢
      omega

theorem countKey_merge_candidate (U : UnicodePrims) (now : Nat) (w : ScrapedWork)
    (hw : pyTruthyStr w.content_type = true) (k : Word × Option Word) :
    ∀ db : List WorkMetadata,
      countKey (merge_candidate U now w db) k ≤ max (countKey db k) 1 := by
  obtain ⟨t, hct, ht⟩ : ∃ t, w.content_type = some t ∧ t ≠ [] := by
    cases h : w.content_type with
    | none => rw [h] at hw; simp [pyTruthyStr] at hw
    | some s =>
      rw [h] at hw
      refine ⟨s, rfl, ?_⟩
      simp only [pyTruthyStr, Bool.not_eq_true'] at hw
      simpa using hw
  by_cases hk : k = (normalize_title U w.title, some t)
  · intro db
    induction db with
    | nil =>
      simp only [merge_candidate, countKey, List.countP_cons, List.countP_nil]
      split <;> simp
    | cons r rs ih =>
      by_cases hm : lookup_matches (normalize_title U w.title) w.content_type r = true
      · simp only [merge_candidate, hm, if_true]
        have hkey : record_key (update_work now r w) = record_key r := by
          simp [record_key, update_work]
        split <;> simp only [countKey, List.countP_cons] <;>
          [rw [hkey]; skip] <;> exact le_max_left _ _
      · have hne : record_key r ≠ k := by
          intro hEq
          apply hm
          rw [hct] at hm ⊢
          exact (lookup_matches_iff_key _ t r).mpr (hEq.trans hk)
        simp only [merge_candidate, hm, Bool.false_eq_true, if_false]
        simp only [countKey, List.countP_cons, decide_eq_true_eq] at ih ⊢
        simp only [hne, if_false]
        omega
  · intro db
    rw [countKey_merge_ne U now w t hct ht k hk db]
    exact le_max_left _ _

/-- C2 (amended). For a batch whose candidates all carry a present,
nonempty content type, an ingestion never increases the number of stored
records per (normalizedTitle, contentType) key beyond one: a second
candidate for an existing key updates or skips instead of inserting.
(For candidates with an absent content type the dedup lookup compares
against SQL NULL while inserts store "unknown", so each such candidate
inserts a fresh record — see the counterexample.) -/
theorem process_and_store_dedup_spec (U : UnicodePrims) (now : Nat)
    (ws : List ScrapedWork) (db : List WorkMetadata) (k : Word × Option Word)
    (hws : ∀ w ∈ ws, pyTruthyStr w.content_type = true) :
    countKey (process_and_store U now ws db) k ≤ max (countKey db k) 1 := by
  induction ws generalizing db with
  | nil => exact le_max_left _ _
  | cons w ws' ih =>
    have h1 : countKey (process_and_store U now ws' (merge_candidate U now w db)) k ≤
        max (countKey (merge_candidate U now w db) k) 1 :=
      ih (merge_candidate U now w db) (fun x hx => hws x (by simp [hx]))
    have h2 : countKey (merge_candidate U now w db) k ≤ max (countKey db k) 1 :=
      countKey_merge_candidate U now w (hws w (by simp)) k db
    have : process_and_store U now (w :: ws') db =
        process_and_store U now ws' (merge_candidate U now w db) := rfl
    rw [this]
    calc countKey (process_and_store U now ws' (merge_candidate U now w db)) k
        ≤ max (countKey (merge_candidate U now w db) k) 1 := h1
      _ ≤ max (max (countKey db k) 1) 1 := by
          exact max_le_max h2 le_rfl
      _ = max (countKey db k) 1 := by rw [max_assoc, max_self]

/-- Witness for C2 (amended): ingesting the two typed same-key
candidates into an empty store leaves at most one record with that
key. -/
theorem process_and_store_dedup_spec_witness :
    countKey (process_and_store asciiPrims 1 [candHighNoCreator, candLowWithCreator] [])
        (chars "moby dick", some (chars "book")) ≤
      max (countKey [] (chars "moby dick", some (chars "book"))) 1 :=
  process_and_store_dedup_spec asciiPrims 1 [candHighNoCreator, candLowWithCreator] []
    (chars "moby dick", some (chars "book")) (by decide)
